import Mathlib

/-!
# ZString.h: a shallow embedding and its properties

The C library works on NUL-terminated `char *` buffers.  In this development

* a string argument is `Option (List Char)`: `none` is the NULL pointer, `some s` a
  buffer holding the bytes `s` followed by the terminator (`strlen` is `s.length`);
* a pointer into a string is an offset (`Nat`) from its start;
* `int` variables are `Int`, `size_t` / `unsigned int` variables are `Nat`; buffers are
  taken to be shorter than `2^31` bytes, so indices never wrap, and an unsigned
  subtraction wraps explicitly (`size_sub`);
* `for (i = 0; i < n; ++i)` loops recurse on `n`; `while` loops take a fuel argument and
  return `none` when the fuel runs out before the loop is left (the loop of `has_header`,
  which consumes one byte of the file per iteration, recurses on the file).
-/

namespace ZString

/-! ## libc: `strstr` -/

/-- The libc call `strstr(hay, needle)`: offset of the first occurrence of `needle`
in `hay`, `none` for NULL.  An empty needle is found at offset 0. -/
def strstr : List Char → List Char → Option Nat
  | hay, needle =>
    if needle.isPrefixOf hay then some 0
    else match hay with
      | [] => none
      | _ :: rest => (strstr rest needle).map (· + 1)

/-- The call `strstr(str + ptr, needle)`, result as an offset from `str`. -/
def strstr_from (s : List Char) (ptr : Nat) (needle : List Char) : Option Nat :=
  (strstr (s.drop ptr) needle).map (ptr + ·)

/-! ## Location index -/

/-- Source: `string_find`. -/
def string_find (str substr : Option (List Char)) : Int :=
  match str, substr with
  | some s, some p =>
    if s.length > 0 then
      match strstr_from s 0 p with
      | some m => (m : Int)
      | none => -1
    else -1
  | _, _ => -1

/-- The `for` loop of `string_find_nth` (repeated inside `string_remove_all` and
`string_replace_all`): `n` iterations left, cursor `ptr`, last position `pos`.
`none`: `strstr` was handed a pointer past the terminator of `str`. -/
def find_nth_loop (s p : List Char) : Nat → Nat → Int → Option Int
  | 0, _, pos => some pos
  | n + 1, ptr, pos =>
    if s.length < ptr then none
    else match strstr_from s ptr p with
      | none => some pos
      | some m => find_nth_loop s p n (m + 1) (m : Int)

/-- Source: `string_find_nth`. -/
def string_find_nth (str substr : Option (List Char)) (count : Nat) : Option Int :=
  match str, substr with
  | some s, some p =>
    if count = 0 then some (-1)
    else if s.length > 0 then find_nth_loop s p count 0 (-1)
    else some (-1)
  | _, _ => some (-1)

/-! ## Counting -/

/-- The loop `while (ptr = strstr(ptr, substr)) { ptr += adv; ++count; }`. -/
def count_loop (s p : List Char) (adv : Nat) : Nat → Nat → Nat → Option Nat
  | 0, _, _ => none
  | fuel + 1, ptr, count =>
    match strstr_from s ptr p with
    | none => some count
    | some m => count_loop s p adv fuel (m + adv) (count + 1)

/-- Source: `string_count`. -/
def string_count (fuel : Nat) (str substr : Option (List Char)) : Option Nat :=
  match str, substr with
  | some s, some p =>
    if s.length < p.length ∨ s.length = 0 ∨ p.length = 0 then some 0
    else count_loop s p p.length fuel 0 0
  | _, _ => some 0

/-- Source: `string_count_overlap`. -/
def string_count_overlap (fuel : Nat) (str substr : Option (List Char)) : Option Nat :=
  match str, substr with
  | some s, some p =>
    if s.length < p.length ∨ s.length = 0 ∨ p.length = 0 then some 0
    else count_loop s p 1 fuel 0 0
  | _, _ => some 0

/-! ## Specification vocabulary -/

/-- The pattern `p` matches in `s` at start index `i`: the `|p|` bytes from `i` are `p`. -/
def MatchAt (s p : List Char) (i : Nat) : Prop := (s.drop i).take p.length = p

instance (s p : List Char) (i : Nat) : Decidable (MatchAt s p i) := by
  unfold MatchAt; infer_instance

/-- All start indices at which `p` matches in `s`, in increasing order. -/
def occurrences (s p : List Char) : List Nat :=
  (List.range (s.length + 1)).filter (fun i => decide (MatchAt s p i))

/-- No two occurrences of `p` in `s` overlap each other. -/
def NoOverlap (s p : List Char) : Prop :=
  ∀ i j, MatchAt s p i → MatchAt s p j → i < j → i + p.length ≤ j

/-! ## Memory

Output buffers are modelled byte by byte.  A block remembers how many bytes `malloc` was
asked for and every byte stored through the returned pointer, also those stored past the
end of the block; `ok` records whether every access so far stayed inside its object. -/

/-- One byte of memory. -/
inductive Cell
  /-- A string byte. -/
  | chr (c : Char)
  /-- The terminator. -/
  | nul
  /-- An indeterminate byte: never written, or read from outside the source object. -/
  | junk
  deriving DecidableEq

/-- The object behind a `char *` argument: the bytes of the string, then the terminator. -/
def cstr (s : List Char) : List Cell := s.map Cell.chr ++ [Cell.nul]

/-- Store `bytes` over the first bytes of a buffer. -/
def overwrite : List Cell → List Cell → List Cell
  | cells, [] => cells
  | [], b :: bs => b :: bs
  | _ :: cs, b :: bs => b :: overwrite cs bs

/-- Store `bytes` from offset `dst` on; offsets skipped on the way hold `junk`. -/
def poke : List Cell → Nat → List Cell → List Cell
  | cells, _, [] => cells
  | cells, 0, b :: bs => overwrite cells (b :: bs)
  | [], d + 1, b :: bs => Cell.junk :: poke [] d (b :: bs)
  | c :: cs, d + 1, b :: bs => c :: poke cs d (b :: bs)

/-- The `n` bytes read from offset `src` of an object; bytes outside it are `junk`. -/
def peek (obj : List Cell) (src n : Nat) : List Cell :=
  let inside := (obj.drop src).take n
  inside ++ List.replicate (n - inside.length) Cell.junk

/-- A block obtained from `malloc`. -/
structure Block where
  /-- The argument of `malloc`. -/
  size : Nat
  /-- The bytes stored so far, from offset 0; offsets from `size` on lie outside the block. -/
  cells : List Cell
  /-- The index of the assignment `output[i] = 0`, once it has run. -/
  term : Option Nat
  /-- Every access so far stayed inside its object. -/
  ok : Bool
  deriving DecidableEq

/-- The call `malloc(n)`. -/
def malloc (n : Nat) : Block := ⟨n, [], none, true⟩

/-- The call `memcpy(output + dst, obj + src, n)`; `none` when an offset or the length
is negative (as a `size_t` such a length exceeds every object). -/
def memcpy (b : Block) (dst : Int) (obj : List Cell) (src n : Int) : Option Block :=
  if dst < 0 ∨ src < 0 ∨ n < 0 then none
  else some { b with
    cells := poke b.cells dst.toNat (peek obj src.toNat n.toNat)
    ok := b.ok && decide (dst.toNat + n.toNat ≤ b.size)
            && decide (src.toNat + n.toNat ≤ obj.length) }

/-- The assignment `output[i] = 0`. -/
def Block.terminate (b : Block) (i : Nat) : Block :=
  { b with cells := poke b.cells i [Cell.nul], term := some i, ok := b.ok && decide (i < b.size) }

/-- The string a reader finds at the start of a buffer: the bytes before the first
terminator; `none` when an indeterminate byte or the end of the stored bytes comes first. -/
def text : List Cell → Option (List Char)
  | [] => none
  | Cell.nul :: _ => some []
  | Cell.junk :: _ => none
  | Cell.chr c :: rest => (text rest).map (c :: ·)

/-- Unsigned subtraction of `size_t` values. -/
def size_sub (a b : Nat) : Nat := if b ≤ a then a - b else 2 ^ 64 - (b - a)

/-- What a call returning `char *` does. -/
inductive Ret
  /-- It returns NULL. -/
  | null
  /-- It returns its argument `str`, without allocating. -/
  | arg
  /-- It returns a block from `malloc`. -/
  | fresh (b : Block)
  /-- Its behaviour is undefined from some point on: it dereferences NULL, divides by
  zero, reads a variable that was never assigned, or calls `memcpy` with a negative
  offset or length. -/
  | wild
  /-- It is still inside a `while` loop when the fuel runs out. -/
  | spin
  deriving DecidableEq

/-- The bytes up to the terminator in the buffer a call returns, `str` being the
argument; this reads the stored bytes whether or not they lie inside the block. -/
def Ret.text (r : Ret) (str : List Char) : Option (List Char) :=
  match r with
  | Ret.arg => some str
  | Ret.fresh b => ZString.text b.cells
  | _ => none

/-- The string a call returns when all its accesses stayed inside their objects. -/
def Ret.string (r : Ret) (str : List Char) : Option (List Char) :=
  match r with
  | Ret.arg => some str
  | Ret.fresh b => if b.ok then ZString.text b.cells else none
  | _ => none

/-! ## Slicing -/

/-- Source: `string_slice`.  `strlen(str)` runs before the NULL test. -/
def string_slice (str : Option (List Char)) (start end_ : Nat) : Ret :=
  match str with
  | none => Ret.wild
  | some s =>
    if start > end_ ∨ s.length = 0 ∨ s.length < start ∨ s.length < end_ then Ret.null
    else
      let output := malloc ((end_ - start) + 1)
      match memcpy output 0 (cstr s) start ((end_ - start + 1 : Nat) : Int) with
      | none => Ret.wild
      | some output => Ret.fresh (output.terminate s.length)

/-! ## Splitting -/

/-- One libc call `strtok(.., delim)` on the not yet tokenised rest of the buffer:
`none` for NULL, else the token and the rest behind the delimiter byte that ended it. -/
def strtok (rest delim : List Char) : Option (List Char × List Char) :=
  let r := rest.dropWhile (fun c => delim.contains c)
  if r = [] then none
  else some (r.takeWhile (fun c => !delim.contains c),
             (r.dropWhile (fun c => !delim.contains c)).drop 1)

/-- What `string_split` returns. -/
inductive SplitRet
  /-- It returns NULL. -/
  | null
  /-- An array allocated for `slots` pointers; `stored` lists the strings whose
  pointers were assigned to `output[0]`, `output[1]`, ... in this order. -/
  | array (slots : Nat) (stored : List (List Char))
  /-- It is still inside a `while` loop when the fuel runs out. -/
  | spin
  deriving DecidableEq

/-- The loop `while (token != NULL) { output[i++] = token; token = strtok(NULL, delimiter); }`. -/
def split_loop (delim : List Char) :
    Nat → Option (List Char × List Char) → List (List Char) → Option (List (List Char))
  | 0, _, _ => none
  | _ + 1, none, stored => some stored
  | fuel + 1, some (token, rest), stored =>
    split_loop delim fuel (strtok rest delim) (stored ++ [token])

/-- Source: `string_split`. -/
def string_split (fuel : Nat) (str delimiter : Option (List Char)) : SplitRet :=
  match str, delimiter with
  | some s, some d =>
    if s.length < d.length ∨ s.length = 0 ∨ d.length = 0 then SplitRet.null
    else
      match count_loop s d d.length fuel 0 0 with
      | none => SplitRet.spin
      | some count =>
        if count = 0 then SplitRet.array (count + 1) [s]
        else
          match split_loop d fuel (strtok s d) [] with
          | none => SplitRet.spin
          | some stored => SplitRet.array (count + 1) stored
  | _, _ => SplitRet.null

/-! ## Removing -/

/-- Source: `string_remove`. -/
def string_remove (str substr : Option (List Char)) : Ret :=
  match str, substr with
  | none, _ => Ret.null
  | some _, none => Ret.arg
  | some s, some p =>
    let pos : Int :=
      if s.length > 0 then
        match strstr_from s 0 p with
        | some m => (m : Int)
        | none => -1
      else -1
    if pos = -1 then Ret.arg
    else
      let length_buf := size_sub s.length p.length
      let output := malloc (length_buf + 1)
      match memcpy output 0 (cstr s) 0 pos with
      | none => Ret.wild
      | some output =>
        match memcpy output pos (cstr s) (pos + p.length) length_buf with
        | none => Ret.wild
        | some output => Ret.fresh (output.terminate length_buf)

/-- The `for (i = 0; i < count; ++i)` loop of `string_remove_all`, `n` iterations left:
the new `pos_str`, `pos_out` and `output`; `none` when an access is wild. -/
def remove_all_loop (s p : List Char) :
    Nat → Nat → Int → Int → Block → Option (Int × Int × Block)
  | 0, _, pos_str, pos_out, output => some (pos_str, pos_out, output)
  | n + 1, i, pos_str, pos_out, output =>
    match find_nth_loop s p (i + 1) 0 (-1) with
    | none => none
    | some pos =>
      let length_copy := pos - pos_str
      match memcpy output pos_out (cstr s) pos_str length_copy with
      | none => none
      | some output =>
        remove_all_loop s p n (i + 1) (pos_str + (length_copy + p.length))
          (pos_out + length_copy) output

/-- Source: `string_remove_all`. -/
def string_remove_all (fuel : Nat) (str substr : Option (List Char)) : Ret :=
  match str, substr with
  | none, _ => Ret.null
  | some _, none => Ret.arg
  | some s, some p =>
    match count_loop s p p.length fuel 0 0 with
    | none => Ret.spin
    | some count =>
      if count = 0 then Ret.arg
      else
        let length_buf := size_sub s.length (p.length * count)
        match remove_all_loop s p count 0 0 0 (malloc length_buf) with
        | none => Ret.wild
        | some (pos_str, pos_out, output) =>
          match memcpy output pos_out (cstr s) pos_str (s.length - pos_str) with
          | none => Ret.wild
          | some output => Ret.fresh (output.terminate length_buf)

/-! ## Replacing -/

/-- The `for (i = 0; i < count; ++i)` loop of `string_replace_all`, `n` iterations left. -/
def replace_all_loop (s p r : List Char) :
    Nat → Nat → Int → Int → Block → Option (Int × Int × Block)
  | 0, _, pos_str, pos_out, output => some (pos_str, pos_out, output)
  | n + 1, i, pos_str, pos_out, output =>
    match find_nth_loop s p (i + 1) 0 (-1) with
    | none => none
    | some pos =>
      let length_copy := pos - pos_str
      match memcpy output pos_out (cstr s) pos_str length_copy with
      | none => none
      | some output =>
        match memcpy output (pos_out + length_copy) (cstr r) 0 r.length with
        | none => none
        | some output =>
          replace_all_loop s p r n (i + 1) (pos_str + length_copy + p.length)
            (pos_out + length_copy + r.length) output

/-- Source: `string_replace_all`. -/
def string_replace_all (fuel : Nat) (str substr replacement : Option (List Char)) : Ret :=
  match str, substr, replacement with
  | none, _, _ => Ret.null
  | some _, none, _ => Ret.null
  | some _, some _, none => Ret.arg
  | some s, some p, some r =>
    if s.length < p.length ∨ s.length = 0 ∨ p.length = 0 then Ret.null
    else
      match count_loop s p p.length fuel 0 0 with
      | none => Ret.spin
      | some count =>
        if count = 0 then Ret.arg
        else
          let length_buf :=
            if p.length < r.length then s.length + (r.length - p.length) * count
            else size_sub s.length ((p.length - r.length) * count)
          match replace_all_loop s p r count 0 0 0 (malloc length_buf) with
          | none => Ret.wild
          | some (pos_str, pos_out, output) =>
            match memcpy output pos_out (cstr s) pos_str (s.length - pos_str) with
            | none => Ret.wild
            | some output => Ret.fresh (output.terminate length_buf)

/-! ## Inserting -/

/-- Source: `string_insert`. -/
def string_insert (str substr : Option (List Char)) (index : Nat) : Ret :=
  match str, substr with
  | none, _ => Ret.null
  | some _, none => Ret.arg
  | some s, some p =>
    let length_buf := s.length + p.length
    let output := malloc (length_buf + 1)
    match memcpy output 0 (cstr s) 0 index with
    | none => Ret.wild
    | some output =>
      match memcpy output index (cstr p) 0 p.length with
      | none => Ret.wild
      | some output =>
        match memcpy output (index + p.length) (cstr s) index s.length with
        | none => Ret.wild
        | some output => Ret.fresh (output.terminate length_buf)

/-! ## libc: `strncmp` -/

/-- The test `strncmp(a, b, n) == 0` on two strings: they agree on their first `n` bytes,
or up to and including their terminators. -/
def strncmp_eq : List Char → List Char → Nat → Bool
  | _, _, 0 => true
  | [], [], _ + 1 => true
  | x :: a, y :: b, n + 1 => decide (x = y) && strncmp_eq a b n
  | [], _ :: _, _ + 1 => false
  | _ :: _, [], _ + 1 => false

/-- What a call returning a number or a truth value does. -/
inductive Val (α : Type)
  /-- It returns `v`. -/
  | ret (v : α)
  /-- It dereferences NULL or reads outside the object of an argument. -/
  | wild
  /-- It is still inside a `while` loop when the fuel runs out. -/
  | spin
  deriving DecidableEq

/-! ## Streak -/

/-- The loop `while (strncmp(str + pos, substr, length_sub) == 0) { ++count; pos += length_sub; }`. -/
def streak_loop (s p : List Char) : Nat → Int → Nat → Val Nat
  | 0, _, _ => Val.spin
  | fuel + 1, pos, count =>
    if pos < 0 ∨ (s.length : Int) < pos then Val.wild
    else if strncmp_eq (s.drop pos.toNat) p p.length then
      streak_loop s p fuel (pos + p.length) (count + 1)
    else Val.ret count

/-- Source: `string_streak`. -/
def string_streak (fuel : Nat) (str substr : Option (List Char)) : Val Nat :=
  match str, substr with
  | some s, some p =>
    if s.length < p.length ∨ s.length = 0 ∨ p.length = 0 then Val.ret 0
    else
      let pos : Int :=
        match strstr_from s 0 p with
        | some m => (m : Int)
        | none => -1
      streak_loop s p fuel pos 0
  | _, _ => Val.ret 0

/-! ## Booleans -/

/-- Source: `string_ends_with`.  The offset `strlen(str) - strlen(substr)` is computed
as a `size_t`; a pointer `str + off` past the terminator lies outside the argument. -/
def string_ends_with (str substr : Option (List Char)) : Val Bool :=
  match str, substr with
  | some s, some p =>
    let off := size_sub s.length p.length
    if s.length < off then Val.wild
    else Val.ret (strncmp_eq (s.drop off) p p.length)
  | _, _ => Val.wild

/-! ## Cutting -/

/-- Source: `string_cut_left`.  `strlen(str)` runs before the NULL test. -/
def string_cut_left (str : Option (List Char)) (amount : Nat) : Ret :=
  match str with
  | none => Ret.wild
  | some s =>
    if s.length < amount then Ret.null
    else
      let output := malloc (size_sub (s.length + 1) amount)
      match memcpy output 0 (cstr s) amount (size_sub s.length amount) with
      | none => Ret.wild
      | some output => Ret.fresh (output.terminate s.length)

/-- Source: `string_cut_right`.  `strlen(str)` runs before the NULL test. -/
def string_cut_right (str : Option (List Char)) (amount : Nat) : Ret :=
  match str with
  | none => Ret.wild
  | some s =>
    if s.length < amount then Ret.null
    else
      let output := malloc (size_sub (s.length + 1) amount)
      match memcpy output 0 (cstr s) 0 (size_sub s.length amount) with
      | none => Ret.wild
      | some output => Ret.fresh (output.terminate s.length)

/-! ## Shifting -/

/-- Source: `string_shift_left`.  `strlen(str)` and `amount % length_str` run before the
NULL test. -/
def string_shift_left (str : Option (List Char)) (amount : Nat) : Ret :=
  match str with
  | none => Ret.wild
  | some s =>
    if s.length = 0 then Ret.wild
    else
      let amount := amount % s.length
      if amount = 0 then Ret.arg
      else
        let output := malloc (s.length + 1)
        match memcpy output 0 (cstr s) amount (size_sub s.length amount) with
        | none => Ret.wild
        | some output =>
          match memcpy output (size_sub s.length amount) (cstr s) 0 amount with
          | none => Ret.wild
          | some output => Ret.fresh (output.terminate s.length)

/-- Source: `string_shift_right`.  `strlen(str)` and `amount % length_str` run before the
NULL test. -/
def string_shift_right (str : Option (List Char)) (amount : Nat) : Ret :=
  match str with
  | none => Ret.wild
  | some s =>
    if s.length = 0 then Ret.wild
    else
      let amount := amount % s.length
      if amount = 0 then Ret.arg
      else
        let output := malloc (s.length + 1)
        match memcpy output 0 (cstr s) (size_sub s.length amount) amount with
        | none => Ret.wild
        | some output =>
          match memcpy output amount (cstr s) 0 (size_sub s.length amount) with
          | none => Ret.wild
          | some output => Ret.fresh (output.terminate s.length)

/-! ## Replacing the first occurrence -/

/-- Source: `string_replace`. -/
def string_replace (str substr replacement : Option (List Char)) : Ret :=
  match str, substr, replacement with
  | none, _, _ => Ret.null
  | some _, none, _ => Ret.null
  | some _, some _, none => Ret.arg
  | some s, some p, some r =>
    if s.length < p.length ∨ s.length = 0 ∨ p.length = 0 then Ret.null
    else
      match strstr_from s 0 p with
      | none => Ret.arg
      | some pos =>
        let length_buf :=
          if p.length < r.length then s.length + (r.length - p.length)
          else size_sub s.length (p.length - r.length)
        let output := malloc length_buf
        match memcpy output 0 (cstr s) 0 pos with
        | none => Ret.wild
        | some output =>
          match memcpy output pos (cstr r) 0 r.length with
          | none => Ret.wild
          | some output =>
            match memcpy output (pos + r.length) (cstr s) (pos + p.length)
                (size_sub s.length p.length) with
            | none => Ret.wild
            | some output => Ret.fresh (output.terminate length_buf)

/-! ## Getting -/

/-- Source: `string_between`.  When one of the three strings is empty the search is
skipped and `pos_a`, `pos_b` are read without ever having been assigned. -/
def string_between (str a b : Option (List Char)) : Ret :=
  match str, a, b with
  | some s, some a, some b =>
    if s.length > 0 ∧ a.length > 0 ∧ b.length > 0 then
      match strstr_from s 0 a with
      | none => Ret.null
      | some pos_a =>
        match strstr_from s 0 b with
        | none => Ret.null
        | some pos_b =>
          let length_buf : Int := (pos_b : Int) - ((pos_a : Int) + a.length)
          let output := malloc (length_buf.toNat + 1)
          match memcpy output 0 (cstr s) ((pos_a : Int) + a.length) length_buf with
          | none => Ret.wild
          | some output => Ret.fresh (output.terminate length_buf.toNat)
    else Ret.wild
  | _, _, _ => Ret.null

/-- Source: `string_before`.  When `str` or `substr` is empty the search is skipped and
`pos` is read without ever having been assigned. -/
def string_before (str substr : Option (List Char)) : Ret :=
  match str, substr with
  | some s, some p =>
    if s.length > 0 ∧ p.length > 0 then
      match strstr_from s 0 p with
      | none => Ret.null
      | some pos =>
        let output := malloc (pos + 1)
        match memcpy output 0 (cstr s) 0 pos with
        | none => Ret.wild
        | some output => Ret.fresh (output.terminate pos)
    else Ret.wild
  | _, _ => Ret.null

/-- Source: `string_after`.  When `str` or `substr` is empty the search is skipped and
`pos` is read without ever having been assigned. -/
def string_after (str substr : Option (List Char)) : Ret :=
  match str, substr with
  | some s, some p =>
    if s.length > 0 ∧ p.length > 0 then
      match strstr_from s 0 p with
      | none => Ret.null
      | some pos =>
        let length_buf := size_sub (size_sub s.length p.length) pos
        let output := malloc (length_buf + 1)
        match memcpy output 0 (cstr s) ((pos : Int) + p.length) length_buf with
        | none => Ret.wild
        | some output => Ret.fresh (output.terminate length_buf)
    else Ret.wild
  | _, _ => Ret.null

/-- Copies of `p` back to back, `k` of them. -/
def copies : Nat → List Char → List Char
  | 0, _ => []
  | k + 1, p => p ++ copies k p

end ZString

/-! # ZImage.h -/

namespace ZImage

/-- Source: `HEADER_PNG`. -/
def HEADER_PNG : List Int := [137, 80, 78, 71, 13, 10, 26, 10]
/-- Source: `HEADER_JPG`. -/
def HEADER_JPG : List Int := [255, 216, 255]
/-- Source: `HEADER_GIF`. -/
def HEADER_GIF : List Int := [71, 73, 70, 56, 57, 97]
/-- Source: `HEADER_BMP`. -/
def HEADER_BMP : List Int := [66, 77]
/-- Source: `HEADER_MNG`. -/
def HEADER_MNG : List Int := [138, 77, 78, 71, 13, 10, 26, 10]
/-- Source: `HEADER_PPM`. -/
def HEADER_PPM : List Int := [80, 52]
/-- Source: `HEADER_PSD`. -/
def HEADER_PSD : List Int := [56, 66, 80, 83]

/-- The loop `while (i < sizeof(header)/sizeof(header[0]) && (byte = fgetc(fp)) != EOF)`
of `has_header`, with `limit` the value of the quotient; the list holds the bytes of the
file that `fgetc` has not returned yet.  `none`: `header[i]` lies outside the table. -/
def has_header_loop (limit : Nat) (header : List Int) : List Nat → Nat → Option Bool
  | [], _ => some true
  | byte :: rest, i =>
    if i < limit then
      match header[i]? with
      | none => none
      | some h =>
        if (byte : Int) ≠ h then some false
        else has_header_loop limit header rest (i + 1)
    else some true

/-- Source: `has_header`.  The parameter `header` has type `const int *`, so
`sizeof(header)` is the size of a pointer and `sizeof(header[0])` that of an `int`; both
are parameters here.  `file` is `none` when `fopen` fails, else the bytes of the file. -/
def has_header (sizeof_ptr sizeof_int : Nat) (file : Option (List Nat)) (header : List Int) :
    Option Bool :=
  match file with
  | none => some false
  | some bytes => has_header_loop (sizeof_ptr / sizeof_int) header bytes 0

end ZImage

namespace ZString

/-! ## Facts about `strstr` -/

theorem matchAt_iff (s p : List Char) (i : Nat) :
    MatchAt s p i ↔ p <+: s.drop i := by
  unfold MatchAt
  rw [List.prefix_iff_eq_take]
  exact eq_comm

theorem strstr_some_iff (h p : List Char) (i : Nat) :
    strstr h p = some i ↔ (p <+: h.drop i ∧ i ≤ h.length ∧ ∀ j, j < i → ¬ p <+: h.drop j) := by
  induction h generalizing i with
  | nil =>
    unfold strstr
    by_cases hp : p.isPrefixOf [] = true
    · simp only [hp, if_true]
      have hp2 : p <+: [] := List.isPrefixOf_iff_prefix.mp hp
      constructor
      · intro h0
        have : i = 0 := by simpa using h0.symm
        subst this
        simpa using hp2
      · rintro ⟨_, hi, _⟩
        have : i = 0 := by simpa using hi
        simp [this]
    · simp only [hp]
      have hp2 : ¬ p <+: [] := fun h => hp (List.isPrefixOf_iff_prefix.mpr h)
      constructor
      · intro h0; simp at h0
      · rintro ⟨h1, _, _⟩
        exact absurd (by simpa using h1) hp2
  | cons a t ih =>
    unfold strstr
    by_cases hp : p.isPrefixOf (a :: t) = true
    · simp only [hp, if_true]
      have hp2 : p <+: a :: t := List.isPrefixOf_iff_prefix.mp hp
      constructor
      · intro h0
        have : i = 0 := by simpa using h0.symm
        subst this
        exact ⟨by simpa using hp2, Nat.zero_le _, fun j hj => absurd hj (Nat.not_lt_zero j)⟩
      · rintro ⟨_, _, hmin⟩
        cases i with
        | zero => rfl
        | succ k => exact absurd (by simpa using hp2) (hmin 0 (Nat.succ_pos k))
    · simp only [hp]
      have hp2 : ¬ p <+: a :: t := fun h => hp (List.isPrefixOf_iff_prefix.mpr h)
      cases i with
      | zero =>
        constructor
        · intro h0
          cases hs : strstr t p <;> simp [hs] at h0
        · rintro ⟨h1, _, _⟩
          exact absurd (by simpa using h1) hp2
      | succ k =>
        have hk := ih k
        constructor
        · intro h0
          have h1 : strstr t p = some k := by
            cases hs : strstr t p with
            | none => simp [hs] at h0
            | some v => simp [hs] at h0; simp [h0]
          obtain ⟨ha, hb, hc⟩ := hk.mp h1
          refine ⟨by simpa using ha, by simpa using hb, ?_⟩
          intro j hj
          cases j with
          | zero => simpa using hp2
          | succ j => simpa using hc j (by omega)
        · rintro ⟨ha, hb, hc⟩
          have h1 : strstr t p = some k :=
            hk.mpr ⟨by simpa using ha, by simpa using hb,
              fun j hj => by simpa using hc (j + 1) (by omega)⟩
          simp [h1]

theorem strstr_none_iff (h p : List Char) :
    strstr h p = none ↔ ∀ j, ¬ p <+: h.drop j := by
  constructor
  · intro hn j hj
    -- there is a least matching index, which strstr would return
    have hex : ∃ k, p <+: h.drop k := ⟨j, hj⟩
    classical
    let k := Nat.find hex
    have hk : p <+: h.drop k := Nat.find_spec hex
    have hmin : ∀ m, m < k → ¬ p <+: h.drop m := fun m hm => Nat.find_min hex hm
    have hle : k ≤ h.length := by
      by_contra hgt
      have hgt2 : h.length < k := by omega
      have hd : h.drop k = [] := List.drop_eq_nil_of_le (by omega)
      have hd2 : h.drop h.length = [] := List.drop_eq_nil_of_le (le_refl _)
      exact hmin h.length hgt2 (by rw [hd2]; rw [hd] at hk; exact hk)
    have := (strstr_some_iff h p k).mpr ⟨hk, hle, hmin⟩
    rw [hn] at this
    exact absurd this (by simp)
  · intro hall
    cases hs : strstr h p with
    | none => rfl
    | some i => exact absurd ((strstr_some_iff h p i).mp hs).1 (hall i)

theorem strstr_from_some_iff (s p : List Char) (ptr m : Nat) :
    strstr_from s ptr p = some m ↔
      (ptr ≤ m ∧ MatchAt s p m ∧ m ≤ max ptr s.length ∧ ∀ j, ptr ≤ j → j < m → ¬ MatchAt s p j) := by
  unfold strstr_from
  simp only [matchAt_iff]
  constructor
  · intro h0
    cases hs : strstr (s.drop ptr) p with
    | none => simp [hs] at h0
    | some i =>
      simp [hs] at h0
      subst h0
      obtain ⟨ha, hb, hc⟩ := (strstr_some_iff _ _ _).mp hs
      refine ⟨by omega, by simpa [List.drop_drop, Nat.add_comm] using ha, ?_, ?_⟩
      · simp only [List.length_drop] at hb
        omega
      · intro j hj1 hj2
        have := hc (j - ptr) (by omega)
        simpa [List.drop_drop, Nat.add_comm, Nat.add_sub_cancel' hj1] using this
  · rintro ⟨h1, h2, h3, h4⟩
    have : strstr (s.drop ptr) p = some (m - ptr) := by
      refine (strstr_some_iff _ _ _).mpr ⟨?_, ?_, ?_⟩
      · simpa [List.drop_drop, Nat.add_comm, Nat.add_sub_cancel' h1] using h2
      · simp only [List.length_drop]
        omega
      · intro j hj
        have := h4 (ptr + j) (by omega) (by omega)
        simpa [List.drop_drop, Nat.add_comm] using this
    simp [this]
    omega

theorem strstr_from_none_iff (s p : List Char) (ptr : Nat) :
    strstr_from s ptr p = none ↔ ∀ j, ptr ≤ j → ¬ MatchAt s p j := by
  unfold strstr_from
  simp only [matchAt_iff]
  constructor
  · intro h0 j hj
    have h1 : strstr (s.drop ptr) p = none := by
      cases hs : strstr (s.drop ptr) p with
      | none => rfl
      | some i => simp [hs] at h0
    have := (strstr_none_iff _ _).mp h1 (j - ptr)
    simpa [List.drop_drop, Nat.add_comm, Nat.add_sub_cancel' hj] using this
  · intro hall
    have : strstr (s.drop ptr) p = none := by
      refine (strstr_none_iff _ _).mpr ?_
      intro j
      have := hall (ptr + j) (by omega)
      simpa [List.drop_drop, Nat.add_comm] using this
    simp [this]

theorem matchAt_bound (s p : List Char) (i : Nat) (hp : p ≠ []) (h : MatchAt s p i) :
    i + p.length ≤ s.length := by
  unfold MatchAt at h
  have h1 : ((s.drop i).take p.length).length = p.length := by rw [h]
  simp only [List.length_take, List.length_drop] at h1
  have : 0 < p.length := List.length_pos.mpr hp
  omega

/-! ## Occurrences from a cursor on -/

theorem mem_occurrences (s p : List Char) (i : Nat) :
    i ∈ occurrences s p ↔ i ≤ s.length ∧ MatchAt s p i := by
  unfold occurrences
  simp only [List.mem_filter, List.mem_range, decide_eq_true_eq, Nat.lt_succ_iff]

theorem occurrences_sorted (s p : List Char) : (occurrences s p).Sorted (· < ·) :=
  (List.sorted_lt_range _).filter _

theorem filter_ge_sorted (l : List Nat) (hl : l.Sorted (· < ·)) (ptr : Nat) :
    (l.filter (fun i => decide (ptr ≤ i))).Sorted (· < ·) :=
  hl.filter _

/-- When `strstr` from `ptr` finds `m`, the occurrences from `ptr` on are `m` and those
from `m + 1` on. -/
theorem occ_from_cons (s p : List Char) (ptr m : Nat) (hptr : ptr ≤ s.length)
    (h : strstr_from s ptr p = some m) :
    (occurrences s p).filter (fun i => decide (ptr ≤ i))
      = m :: (occurrences s p).filter (fun i => decide (m + 1 ≤ i)) := by
  obtain ⟨h1, h2, h3, h4⟩ := (strstr_from_some_iff s p ptr m).mp h
  have hm : m ≤ s.length := by
    rcases Nat.le_total ptr s.length with h5 | h5
    · simpa [Nat.max_eq_right h5] using h3
    · omega
  apply List.eq_of_perm_of_sorted (r := (· < ·))
  · rw [List.perm_ext_iff_of_nodup]
    · intro a
      simp only [List.mem_filter, mem_occurrences, decide_eq_true_eq, List.mem_cons]
      constructor
      · rintro ⟨⟨ha1, ha2⟩, ha3⟩
        by_cases hlt : a < m
        · exact absurd ha2 (h4 a ha3 hlt)
        · by_cases heq : a = m
          · exact Or.inl heq
          · exact Or.inr ⟨⟨ha1, ha2⟩, by omega⟩
      · rintro (rfl | ⟨⟨ha1, ha2⟩, ha3⟩)
        · exact ⟨⟨hm, h2⟩, h1⟩
        · exact ⟨⟨ha1, ha2⟩, by omega⟩
    · exact (filter_ge_sorted _ (occurrences_sorted s p) ptr).nodup
    · refine List.nodup_cons.mpr ⟨?_, (filter_ge_sorted _ (occurrences_sorted s p) (m + 1)).nodup⟩
      simp only [List.mem_filter, decide_eq_true_eq]
      omega
  · exact filter_ge_sorted _ (occurrences_sorted s p) ptr
  · refine List.sorted_cons.mpr ⟨?_, filter_ge_sorted _ (occurrences_sorted s p) (m + 1)⟩
    intro b hb
    simp only [List.mem_filter, decide_eq_true_eq] at hb
    omega

theorem occ_from_nil (s p : List Char) (ptr : Nat)
    (h : strstr_from s ptr p = none) :
    (occurrences s p).filter (fun i => decide (ptr ≤ i)) = [] := by
  have h1 := (strstr_from_none_iff s p ptr).mp h
  rw [List.filter_eq_nil_iff]
  intro a ha
  simp only [decide_eq_true_eq]
  intro hle
  exact h1 a hle ((mem_occurrences s p a).mp ha).2

theorem occ_from_zero (s p : List Char) :
    (occurrences s p).filter (fun i => decide (0 ≤ i)) = occurrences s p := by
  simp

/-- The loop of `string_find_nth` returns the `n`-th occurrence after the cursor when
there are that many. -/
theorem find_nth_loop_spec (s p : List Char) (hp : p ≠ []) (n : Nat) :
    ∀ (ptr : Nat) (pos : Int), ptr ≤ s.length →
      n < ((occurrences s p).filter (fun i => decide (ptr ≤ i))).length →
      ∃ i : Nat, find_nth_loop s p (n + 1) ptr pos = some (i : Int) ∧
        ((occurrences s p).filter (fun i => decide (ptr ≤ i)))[n]? = some i := by
  induction n with
  | zero =>
    intro ptr pos hptr hlen
    cases hs : strstr_from s ptr p with
    | none => rw [occ_from_nil s p ptr hs] at hlen; simp at hlen
    | some m =>
      refine ⟨m, ?_, ?_⟩
      · simp [find_nth_loop, hs, Nat.not_lt.mpr hptr]
      · rw [occ_from_cons s p ptr m hptr hs]; simp
  | succ k ih =>
    intro ptr pos hptr hlen
    cases hs : strstr_from s ptr p with
    | none => rw [occ_from_nil s p ptr hs] at hlen; simp at hlen
    | some m =>
      have hm := ((strstr_from_some_iff s p ptr m).mp hs).2.1
      have hb := matchAt_bound s p m hp hm
      have hpl : 0 < p.length := List.length_pos.mpr hp
      rw [occ_from_cons s p ptr m hptr hs] at hlen ⊢
      simp only [List.length_cons] at hlen
      obtain ⟨i, hi1, hi2⟩ := ih (m + 1) (m : Int) (by omega) (by omega)
      refine ⟨i, ?_, ?_⟩
      · rw [find_nth_loop]
        simp only [hs, Nat.not_lt.mpr hptr, if_false]
        exact hi1
      · simpa using hi2

/-! ## The counting loop -/

theorem count_loop_mono (s p : List Char) (adv : Nat) (fuel : Nat) :
    ∀ (ptr c r : Nat), count_loop s p adv fuel ptr c = some r →
      ∀ k, count_loop s p adv (fuel + k) ptr c = some r := by
  induction fuel with
  | zero => intro ptr c r h; simp [count_loop] at h
  | succ f ih =>
    intro ptr c r h k
    rw [Nat.add_right_comm]
    rw [count_loop] at h ⊢
    cases hs : strstr_from s ptr p with
    | none => simpa [hs] using h
    | some m =>
      simp only [hs] at h ⊢
      exact ih _ _ _ h k

theorem occ_from_length_anti (s p : List Char) (a b : Nat) (hab : a ≤ b) :
    ((occurrences s p).filter (fun i => decide (b ≤ i))).length
      ≤ ((occurrences s p).filter (fun i => decide (a ≤ i))).length := by
  apply List.Sublist.length_le
  apply List.monotone_filter_right
  intro x hx
  simp only [decide_eq_true_eq] at hx ⊢
  omega

/-- With enough fuel the counting loop is left, having added to `count` at most the
number of occurrences from the cursor on; exactly that number when skipping `adv` bytes
after a match skips no occurrence. -/
theorem count_loop_spec (s p : List Char) (hp : p ≠ []) (adv : Nat) (h1 : 1 ≤ adv)
    (h2 : adv ≤ p.length) (fuel : Nat) :
    ∀ (ptr c : Nat), ptr ≤ s.length → s.length - ptr < fuel →
      ∃ N, count_loop s p adv fuel ptr c = some (c + N) ∧
        N ≤ ((occurrences s p).filter (fun i => decide (ptr ≤ i))).length ∧
        ((∀ m, MatchAt s p m →
            (occurrences s p).filter (fun i => decide (m + 1 ≤ i))
              = (occurrences s p).filter (fun i => decide (m + adv ≤ i))) →
          N = ((occurrences s p).filter (fun i => decide (ptr ≤ i))).length) := by
  induction fuel with
  | zero => intro ptr c _ h; omega
  | succ f ih =>
    intro ptr c hptr hfuel
    rw [count_loop]
    cases hs : strstr_from s ptr p with
    | none =>
      refine ⟨0, by simp, Nat.zero_le _, fun _ => ?_⟩
      rw [occ_from_nil s p ptr hs]; rfl
    | some m =>
      obtain ⟨hm1, hm2, _, _⟩ := (strstr_from_some_iff s p ptr m).mp hs
      have hb := matchAt_bound s p m hp hm2
      obtain ⟨N, hN1, hN2, hN3⟩ := ih (m + adv) (c + 1) (by omega) (by omega)
      have hanti := occ_from_length_anti s p (m + 1) (m + adv) (by omega)
      refine ⟨N + 1, ?_, ?_, ?_⟩
      · simp only [hN1]
        congr 1
        omega
      · rw [occ_from_cons s p ptr m hptr hs]
        simp only [List.length_cons]
        omega
      · intro hskip
        rw [occ_from_cons s p ptr m hptr hs, hskip m hm2, hN3 hskip]
        simp

theorem string_count_some (fuel : Nat) (s p : List Char) :
    string_count fuel (some s) (some p)
      = if s.length < p.length ∨ s.length = 0 ∨ p.length = 0 then some 0
        else count_loop s p p.length fuel 0 0 := rfl

theorem string_count_overlap_some (fuel : Nat) (s p : List Char) :
    string_count_overlap fuel (some s) (some p)
      = if s.length < p.length ∨ s.length = 0 ∨ p.length = 0 then some 0
        else count_loop s p 1 fuel 0 0 := rfl

/-! ## Claims -/

/-- C1: for a non-empty string `s` and a non-empty pattern `p` occurring in `s`,
`string_find` returns an index at which `p` matches (the `|p|` bytes of `s` from there
equal `p`), and `p` matches at no smaller index. -/
theorem string_find_first_occurrence (s p : List Char) (hs : s ≠ []) (_hp : p ≠ [])
    (hocc : ∃ j, (s.drop j).take p.length = p) :
    ∃ i : Nat, string_find (some s) (some p) = (i : Int) ∧
      (s.drop i).take p.length = p ∧ ∀ j, j < i → (s.drop j).take p.length ≠ p := by
  have hlen : 0 < s.length := List.length_pos.mpr hs
  cases hf : strstr_from s 0 p with
  | none =>
    obtain ⟨j, hj⟩ := hocc
    exact absurd hj ((strstr_from_none_iff s p 0).mp hf j (Nat.zero_le j))
  | some m =>
    obtain ⟨_, h2, _, h4⟩ := (strstr_from_some_iff s p 0 m).mp hf
    refine ⟨m, ?_, h2, fun j hj => h4 j (Nat.zero_le j) hj⟩
    simp [string_find, hlen, hf]

theorem string_find_first_occurrence_witness :
    ∃ i : Nat, string_find (some "Bar Foo Bar Foo".toList) (some "Foo".toList) = (i : Int) ∧
      ("Bar Foo Bar Foo".toList.drop i).take "Foo".toList.length = "Foo".toList ∧
      ∀ j, j < i → ("Bar Foo Bar Foo".toList.drop j).take "Foo".toList.length ≠ "Foo".toList :=
  string_find_first_occurrence "Bar Foo Bar Foo".toList "Foo".toList (by decide) (by decide)
    ⟨4, by decide⟩

/-- C2: for every string `s` and pattern `p` both counts are produced (any fuel above
`|s|` suffices), `string_count_overlap` is at least `string_count`, and the two are equal
when no two occurrences of `p` in `s` overlap; on "Fooo Foo" with "oo" they are 3 and 2. -/
theorem count_overlap_ge_count :
    (∀ s p : List Char, ∃ a b : Nat,
      (∀ fuel, s.length < fuel → string_count fuel (some s) (some p) = some a) ∧
      (∀ fuel, s.length < fuel → string_count_overlap fuel (some s) (some p) = some b) ∧
      a ≤ b ∧ (NoOverlap s p → a = b)) ∧
    string_count 9 (some "Fooo Foo".toList) (some "oo".toList) = some 2 ∧
    string_count_overlap 9 (some "Fooo Foo".toList) (some "oo".toList) = some 3 := by
  refine ⟨?_, by decide, by decide⟩
  intro s p
  by_cases hg : s.length < p.length ∨ s.length = 0 ∨ p.length = 0
  · exact ⟨0, 0, fun _ _ => by rw [string_count_some, if_pos hg],
      fun _ _ => by rw [string_count_overlap_some, if_pos hg], le_refl _, fun _ => rfl⟩
  · have hp : p ≠ [] := by
      intro h; apply hg; right; right; simp [h]
    have hpl : 0 < p.length := List.length_pos.mpr hp
    obtain ⟨a, ha1, ha2, ha3⟩ :=
      count_loop_spec s p hp p.length hpl (le_refl _) (s.length + 1) 0 0 (Nat.zero_le _)
        (by omega)
    obtain ⟨b, hb1, _, hb3⟩ :=
      count_loop_spec s p hp 1 (le_refl _) hpl (s.length + 1) 0 0 (Nat.zero_le _) (by omega)
    have hb : b = ((occurrences s p).filter (fun i => decide (0 ≤ i))).length :=
      hb3 (fun _ _ => rfl)
    refine ⟨a, b, ?_, ?_, by omega, ?_⟩
    · intro fuel hfuel
      obtain ⟨k, rfl⟩ : ∃ k, fuel = s.length + 1 + k := ⟨fuel - (s.length + 1), by omega⟩
      rw [string_count_some, if_neg hg]
      simpa using count_loop_mono s p p.length (s.length + 1) 0 0 _ ha1 k
    · intro fuel hfuel
      obtain ⟨k, rfl⟩ : ∃ k, fuel = s.length + 1 + k := ⟨fuel - (s.length + 1), by omega⟩
      rw [string_count_overlap_some, if_neg hg]
      simpa using count_loop_mono s p 1 (s.length + 1) 0 0 _ hb1 k
    · intro hno
      rw [hb]
      apply ha3
      intro m hm
      apply List.filter_congr
      intro x hx
      have hx2 := ((mem_occurrences s p x).mp hx).2
      by_cases hmx : m < x
      · have := hno m x hm hx2 hmx
        have e1 : decide (m + 1 ≤ x) = true := by simp; omega
        have e2 : decide (m + p.length ≤ x) = true := by simp; omega
        rw [e1, e2]
      · have e1 : decide (m + 1 ≤ x) = false := by simp; omega
        have e2 : decide (m + p.length ≤ x) = false := by simp; omega
        rw [e1, e2]

/-- C8: on "Foo Bar" the pattern "Foo" matches at one start index only, yet
`string_find_nth` with `n = 2` returns 0, the position of the first occurrence, and
not -1. -/
theorem string_find_nth_too_few :
    occurrences "Foo Bar".toList "Foo".toList = [0] ∧
    string_find_nth (some "Foo Bar".toList) (some "Foo".toList) 2 = some 0 := by
  decide

/-- C9: for a non-empty string `s`, a non-empty pattern `p` and `n ≥ 1` such that `p`
matches at `n` or more start indices of `s`, `string_find_nth` returns the `n`-th
smallest of them (overlapping matches included); on "Foo Bar Foo Bar" with "Foo" and
`n = 2` this is 8. -/
theorem string_find_nth_spec (s p : List Char) (n : Nat) (hs : s ≠ []) (hp : p ≠ [])
    (hn : 1 ≤ n) (hocc : n ≤ (occurrences s p).length) :
    ∃ i : Nat, string_find_nth (some s) (some p) n = some (i : Int) ∧
      (occurrences s p)[n - 1]? = some i := by
  have hlen : 0 < s.length := List.length_pos.mpr hs
  obtain ⟨k, rfl⟩ : ∃ k, n = k + 1 := ⟨n - 1, by omega⟩
  obtain ⟨i, hi1, hi2⟩ :=
    find_nth_loop_spec s p hp k 0 (-1) (Nat.zero_le _) (by rw [occ_from_zero]; omega)
  rw [occ_from_zero] at hi2
  refine ⟨i, ?_, by simpa using hi2⟩
  simp only [string_find_nth, Nat.succ_ne_zero, if_false, hlen, if_true]
  exact hi1

theorem string_find_nth_spec_witness :
    ∃ i : Nat, string_find_nth (some "Foo Bar Foo Bar".toList) (some "Foo".toList) 2
        = some (i : Int) ∧
      (occurrences "Foo Bar Foo Bar".toList "Foo".toList)[2 - 1]? = some i :=
  string_find_nth_spec "Foo Bar Foo Bar".toList "Foo".toList 2 (by decide) (by decide)
    (by decide) (by decide)

/-- C3: on "aaaa" with "aa" `string_count` is 2, but the second pass of the copy loop
looks up the second occurrence with overlap (index 1, behind `pos_str = 2`), computes
`length_copy = -1` and hands it to `memcpy`: no string is returned. -/
theorem string_remove_all_overlap :
    string_count 8 (some "aaaa".toList) (some "aa".toList) = some 2 ∧
    find_nth_loop "aaaa".toList "aa".toList 2 0 (-1) = some 1 ∧
    string_remove_all 8 (some "aaaa".toList) (some "aa".toList) = Ret.wild := by
  decide

/-- C4: on "aaaa" with "aa" and replacement "b" `string_count` is 2, but the copy loop
reaches `memcpy` with length -1 and no string is returned; on the documented example the
bytes written are "Bye Bye World", into a block of 13 bytes whose terminator goes to
index 13. -/
theorem string_replace_all_overlap :
    string_count 8 (some "aaaa".toList) (some "aa".toList) = some 2 ∧
    string_replace_all 8 (some "aaaa".toList) (some "aa".toList) (some "b".toList)
      = Ret.wild ∧
    ∃ b, string_replace_all 20 (some "Hello Hello World".toList) (some "Hello".toList)
          (some "Bye".toList) = Ret.fresh b ∧
      text b.cells = some "Bye Bye World".toList ∧
      b.size = 13 ∧ b.term = some 13 ∧ b.ok = false := by
  refine ⟨by decide, by decide, _, rfl, ?_⟩
  decide

/-- C5: on "a-b--c" with the delimiter "--", which occurs once, `string_split` allocates
two slots and stores the three tokens "a", "b", "c" (`strtok` takes each byte of the
delimiter as a separator); on "a,,b" with "," it allocates three slots and stores only
"a" and "b". -/
theorem string_split_pieces :
    string_count 8 (some "a-b--c".toList) (some "--".toList) = some 1 ∧
    string_split 8 (some "a-b--c".toList) (some "--".toList)
      = SplitRet.array 2 ["a".toList, "b".toList, "c".toList] ∧
    string_split 8 (some "a,,b".toList) (some ",".toList)
      = SplitRet.array 3 ["a".toList, "b".toList] := by
  decide

/-- C6, as stated: removing "ab" from "aabb" leaves the bytes "ab", and removing "ab"
from those leaves the empty string, so the second application changes the result. -/
theorem string_remove_all_not_idempotent :
    ∃ t u : List Char,
      (string_remove_all 8 (some "aabb".toList) (some "ab".toList)).text "aabb".toList
        = some t ∧
      (string_remove_all 8 (some t) (some "ab".toList)).text t = some u ∧ u ≠ t :=
  ⟨"ab".toList, [], by decide, by decide, by decide⟩

/-- C6, amended: when `string_remove_all(s, p)` leaves bytes `t` in which the non-empty
pattern `p` no longer occurs, applying `string_remove_all` to `t` returns `t` itself, so
the second application gives the same string as the first. -/
theorem string_remove_all_twice (s p t : List Char) (fuel : Nat) (_hp : p ≠ [])
    (h1 : (string_remove_all fuel (some s) (some p)).text s = some t)
    (h2 : ∀ j, ¬ MatchAt t p j) :
    ∀ fuel2, 0 < fuel2 →
      string_remove_all fuel2 (some t) (some p) = Ret.arg ∧
      (string_remove_all fuel2 (some t) (some p)).text t
        = (string_remove_all fuel (some s) (some p)).text s := by
  intro fuel2 hf
  obtain ⟨f, rfl⟩ : ∃ f, fuel2 = f + 1 := ⟨fuel2 - 1, by omega⟩
  have hnone : strstr_from t 0 p = none :=
    (strstr_from_none_iff t p 0).mpr (fun j _ => h2 j)
  have hret : string_remove_all (f + 1) (some t) (some p) = Ret.arg := by
    simp [string_remove_all, count_loop, hnone]
  rw [hret, h1]
  exact ⟨rfl, rfl⟩

theorem string_remove_all_twice_witness :
    string_remove_all 20 (some "Hello  World".toList) (some "There".toList) = Ret.arg ∧
    (string_remove_all 20 (some "Hello  World".toList) (some "There".toList)).text
        "Hello  World".toList
      = (string_remove_all 20 (some "Hello There World".toList) (some "There".toList)).text
        "Hello There World".toList :=
  string_remove_all_twice "Hello There World".toList "There".toList "Hello  World".toList 20
    (by decide) (by decide)
    (fun j => (strstr_from_none_iff "Hello  World".toList "There".toList 0).mp (by decide) j
      (Nat.zero_le j))
    20 (by decide)

/-- C7: "There" occurs in "Hello There World" once, at index 6.  `string_remove` leaves
the bytes "Hello  World" but copies 12 bytes from offset 11 of the 18-byte argument into
offset 6 of a 13-byte block; `string_insert` at 6 restores the bytes of the argument but
copies 12 bytes from offset 6 of a 13-byte object into offset 11 of an 18-byte block.
Both calls leave their objects. -/
theorem string_insert_remove_bounds :
    occurrences "Hello There World".toList "There".toList = [6] ∧
    ∃ b1 b2,
      string_remove (some "Hello There World".toList) (some "There".toList) = Ret.fresh b1 ∧
      text b1.cells = some "Hello  World".toList ∧
      b1.size = 13 ∧ b1.cells.length = 18 ∧ b1.ok = false ∧
      string_insert (some "Hello  World".toList) (some "There".toList) 6 = Ret.fresh b2 ∧
      text b2.cells = some "Hello There World".toList ∧
      b2.size = 18 ∧ b2.cells.length = 23 ∧ b2.ok = false ∧
      (Ret.fresh b1).string "Hello There World".toList = none ∧
      (Ret.fresh b2).string "Hello  World".toList = none := by
  refine ⟨by decide, _, _, rfl, ?_, ?_, ?_, ?_, rfl, ?_⟩ <;> decide

/-- C10: `string_slice("Hello World", 0, 4)` allocates 5 bytes, fills them with "Hello"
and stores the terminator at index 11, the length of the argument: the five bytes are
followed by bytes that were never written, and no string is returned. -/
theorem string_slice_terminator :
    ∃ b, string_slice (some "Hello World".toList) 0 4 = Ret.fresh b ∧
      b.size = 5 ∧ b.cells.take 5 = "Hello".toList.map Cell.chr ∧
      b.cells.get? 5 = some Cell.junk ∧ b.term = some 11 ∧ b.ok = false ∧
      (string_slice (some "Hello World".toList) 0 4).text "Hello World".toList = none ∧
      (string_slice (some "Hello World".toList) 0 4).string "Hello World".toList = none := by
  refine ⟨_, rfl, ?_⟩
  decide

/-! ## Facts about memory -/

theorem peek_cstr (s : List Char) (off n : Nat) (h : off + n ≤ s.length) :
    peek (cstr s) off n = ((s.drop off).take n).map Cell.chr := by
  unfold peek cstr
  have h1 : off ≤ (s.map Cell.chr).length := by simp; omega
  have h2 : n ≤ ((s.map Cell.chr).drop off).length := by simp; omega
  simp only [List.drop_append_of_le_length h1, List.take_append_of_le_length h2]
  have h3 : (List.take n (List.drop off (List.map Cell.chr s))).length = n := by
    simp; omega
  simp [h3, List.map_drop, List.map_take]

theorem poke_end (cells bytes : List Cell) (d : Nat) (h : d = cells.length) :
    poke cells d bytes = cells ++ bytes := by
  subst h
  induction cells with
  | nil => cases bytes <;> simp [poke, overwrite]
  | cons c cs ih => cases bytes <;> simp_all [poke]

theorem text_cstr_append (l : List Char) (rest : List Cell) :
    text (l.map Cell.chr ++ Cell.nul :: rest) = some l := by
  induction l with
  | nil => simp [text]
  | cons c l ih => simp [text, ih]

theorem text_cstr (l : List Char) : text (cstr l) = some l := text_cstr_append l []

theorem memcpy_nat (b : Block) (d o n : Nat) (obj : List Cell) :
    memcpy b (d : Int) obj (o : Int) (n : Int)
      = some { size := b.size, cells := poke b.cells d (peek obj o n), term := b.term,
               ok := b.ok && decide (d + n ≤ b.size) && decide (o + n ≤ obj.length) } := by
  unfold memcpy
  have : ¬ ((d : Int) < 0 ∨ (o : Int) < 0 ∨ (n : Int) < 0) := by omega
  rw [if_neg this]
  simp

theorem size_sub_le (a b : Nat) (h : b ≤ a) : size_sub a b = a - b := by
  unfold size_sub; rw [if_pos h]

theorem string_shift_left_block (s : List Char) (a : Nat) (hs : s ≠ []) (hk : a % s.length ≠ 0) :
    string_shift_left (some s) a
      = Ret.fresh ⟨s.length + 1, cstr (s.drop (a % s.length) ++ s.take (a % s.length)),
          some s.length, true⟩ := by
  have hlen : 0 < s.length := List.length_pos.mpr hs
  have hlt : a % s.length < s.length := Nat.mod_lt _ hlen
  have h0 : s.length ≠ 0 := by omega
  unfold string_shift_left
  simp only [h0, hk, if_false]
  rw [size_sub_le _ _ (le_of_lt hlt)]
  have e0 : (0 : Int) = ((0 : Nat) : Int) := rfl
  rw [e0, memcpy_nat]
  simp only []
  rw [memcpy_nat]
  simp only [Block.terminate, malloc]
  rw [peek_cstr s _ _ (by omega), peek_cstr s 0 _ (by omega)]
  rw [poke_end [] _ 0 rfl, poke_end _ _ (s.length - a % s.length) (by simp),
    poke_end _ _ s.length (by simp; omega)]
  simp [cstr, List.take_of_length_le]
  have : s.length - a % s.length + a % s.length ≤ s.length + 1 := by omega
  simp [this]
  omega


theorem string_shift_right_block (s : List Char) (a : Nat) (hs : s ≠ []) (hk : a % s.length ≠ 0) :
    string_shift_right (some s) a
      = Ret.fresh ⟨s.length + 1,
          cstr (s.drop (s.length - a % s.length) ++ s.take (s.length - a % s.length)),
          some s.length, true⟩ := by
  have hlen : 0 < s.length := List.length_pos.mpr hs
  have hlt : a % s.length < s.length := Nat.mod_lt _ hlen
  have h0 : s.length ≠ 0 := by omega
  unfold string_shift_right
  simp only [h0, hk, if_false]
  rw [size_sub_le _ _ (le_of_lt hlt)]
  have e0 : (0 : Int) = ((0 : Nat) : Int) := rfl
  rw [e0, memcpy_nat]
  simp only []
  rw [memcpy_nat]
  simp only [Block.terminate, malloc]
  rw [peek_cstr s _ _ (by omega), peek_cstr s 0 _ (by omega)]
  rw [poke_end [] _ 0 rfl, poke_end _ _ (a % s.length) (by simp; omega),
    poke_end _ _ s.length (by simp; omega)]
  simp [cstr, List.take_of_length_le]
  have : a % s.length + (s.length - a % s.length) ≤ s.length + 1 := by omega
  simp [this]
  omega

/-! ## The streak loop -/

theorem strncmp_eq_iff (p : List Char) : ∀ a : List Char,
    strncmp_eq a p p.length = true ↔ p <+: a := by
  induction p with
  | nil => intro a; simp [strncmp_eq]
  | cons y p ih =>
    intro a
    cases a with
    | nil => simp [strncmp_eq]
    | cons x a =>
      simp only [List.length_cons, strncmp_eq, Bool.and_eq_true, decide_eq_true_eq, ih a,
        List.cons_prefix_cons]
      constructor
      · rintro ⟨h1, h2⟩; exact ⟨h1.symm, h2⟩
      · rintro ⟨h1, h2⟩; exact ⟨h1.symm, h2⟩

theorem append_prefix_iff (p q l : List Char) :
    p ++ q <+: l ↔ p <+: l ∧ q <+: l.drop p.length := by
  constructor
  · intro h
    have hp : p <+: l := (List.prefix_append p q).trans h
    obtain ⟨l', rfl⟩ := hp
    refine ⟨List.prefix_append p l', ?_⟩
    rw [List.drop_left]
    exact (List.prefix_append_right_inj p).mp h
  · rintro ⟨⟨l', rfl⟩, h2⟩
    rw [List.drop_left] at h2
    exact (List.prefix_append_right_inj p).mpr h2

theorem copies_prefix_mono (p : List Char) (a : Nat) : ∀ b, a ≤ b → copies a p <+: copies b p := by
  induction a with
  | zero => intro b _; simp [copies]
  | succ a ih =>
    intro b hb
    obtain ⟨b', rfl⟩ : ∃ b', b = b' + 1 := ⟨b - 1, by omega⟩
    simp only [copies]
    exact (List.prefix_append_right_inj p).mpr (ih b' (by omega))

/-- With enough fuel the streak loop started at a position inside the string is left,
having added to `count` the largest number of back-to-back copies found there. -/
theorem streak_loop_spec (s p : List Char) (hp : p ≠ []) (d : Nat) :
    ∀ (pos c : Nat), pos ≤ s.length → s.length - pos ≤ d →
      ∃ k, (∀ fuel, s.length - pos < fuel → streak_loop s p fuel (pos : Int) c = Val.ret (c + k)) ∧
        copies k p <+: s.drop pos ∧ ¬ copies (k + 1) p <+: s.drop pos := by
  have hpl : 0 < p.length := List.length_pos.mpr hp
  induction d with
  | zero =>
    intro pos c hpos hd
    have hno : ¬ p <+: s.drop pos := by
      intro h
      have := matchAt_bound s p pos hp ((matchAt_iff s p pos).mpr h)
      omega
    refine ⟨0, ?_, by simp [copies], by simpa [copies] using hno⟩
    intro fuel hf
    obtain ⟨f, rfl⟩ : ∃ f, fuel = f + 1 := ⟨fuel - 1, by omega⟩
    have hc : ¬ strncmp_eq (s.drop pos) p p.length = true := by
      rw [strncmp_eq_iff]; exact hno
    simp [streak_loop, hc, hpos]
  | succ d ih =>
    intro pos c hpos hd
    by_cases hm : p <+: s.drop pos
    · have hbound := matchAt_bound s p pos hp ((matchAt_iff s p pos).mpr hm)
      obtain ⟨k, hk1, hk2, hk3⟩ := ih (pos + p.length) (c + 1) hbound (by omega)
      refine ⟨k + 1, ?_, ?_, ?_⟩
      · intro fuel hf
        obtain ⟨f, rfl⟩ : ∃ f, fuel = f + 1 := ⟨fuel - 1, by omega⟩
        have hb : ¬ ((pos : Int) < 0 ∨ (s.length : Int) < (pos : Int)) := by omega
        have hc : strncmp_eq (s.drop pos) p p.length = true := (strncmp_eq_iff p _).mpr hm
        have := hk1 f (by omega)
        rw [streak_loop]
        simp only [hb, if_false, Int.toNat_ofNat, hc, if_true]
        rw [show ((pos : Int) + (p.length : Int)) = ((pos + p.length : Nat) : Int) by push_cast; rfl]
        rw [this]
        congr 1
        omega
      · simp only [copies]
        rw [append_prefix_iff]
        exact ⟨hm, by simpa [List.drop_drop, Nat.add_comm] using hk2⟩
      · simp only [copies] at hk3 ⊢
        rw [append_prefix_iff]
        rintro ⟨_, h2⟩
        apply hk3
        simpa [List.drop_drop, Nat.add_comm, copies] using h2
    · refine ⟨0, ?_, by simp [copies], by simpa [copies] using hm⟩
      intro fuel hf
      obtain ⟨f, rfl⟩ : ∃ f, fuel = f + 1 := ⟨fuel - 1, by omega⟩
      have hc : ¬ strncmp_eq (s.drop pos) p p.length = true := by
        rw [strncmp_eq_iff]; exact hm
      simp [streak_loop, hc, hpos]


/-! ## Claims on shifting, replacing, streaks and extraction -/

/-- C11: for a non-empty string `s` of length `L` and `k = a mod L`, `string_shift_left`
is the string `s[k..L)` followed by `s[0..k)` and `string_shift_right` the string
`s[L-k..L)` followed by `s[0..L-k)`, each inside its block of `L + 1` bytes; both have
length `L`, and for `k = 0` both return `s` itself. -/
theorem string_shift_spec (s : List Char) (a : Nat) (hs : s ≠ []) :
    (string_shift_left (some s) a).string s
      = some (s.drop (a % s.length) ++ s.take (a % s.length)) ∧
    (string_shift_right (some s) a).string s
      = some (s.drop (s.length - a % s.length) ++ s.take (s.length - a % s.length)) ∧
    (s.drop (a % s.length) ++ s.take (a % s.length)).length = s.length ∧
    (s.drop (s.length - a % s.length) ++ s.take (s.length - a % s.length)).length
      = s.length ∧
    (a % s.length = 0 →
      string_shift_left (some s) a = Ret.arg ∧ string_shift_right (some s) a = Ret.arg) := by
  have hlen : 0 < s.length := List.length_pos.mpr hs
  have hlt : a % s.length < s.length := Nat.mod_lt _ hlen
  have h0 : s.length ≠ 0 := by omega
  have hzero : a % s.length = 0 →
      string_shift_left (some s) a = Ret.arg ∧ string_shift_right (some s) a = Ret.arg := by
    intro hk
    constructor
    · unfold string_shift_left; simp only [h0, hk, if_false, if_true]
    · unfold string_shift_right; simp only [h0, hk, if_false, if_true]
  refine ⟨?_, ?_, ?_, ?_, hzero⟩
  · by_cases hk : a % s.length = 0
    · rw [(hzero hk).1, hk]; simp [Ret.string]
    · rw [string_shift_left_block s a hs hk]
      simp only [Ret.string, if_true, text_cstr]
  · by_cases hk : a % s.length = 0
    · rw [(hzero hk).2, hk]; simp [Ret.string]
    · rw [string_shift_right_block s a hs hk]
      simp only [Ret.string, if_true, text_cstr]
  · simp only [List.length_append, List.length_drop, List.length_take]; omega
  · simp only [List.length_append, List.length_drop, List.length_take]; omega

theorem string_shift_spec_witness :
    (string_shift_left (some "abcdefg".toList) 3).string "abcdefg".toList
      = some "defgabc".toList ∧
    (string_shift_right (some "abcdefg".toList) 3).string "abcdefg".toList
      = some "efgabcd".toList :=
  ⟨(string_shift_spec "abcdefg".toList 3 (by decide)).1,
   (string_shift_spec "abcdefg".toList 3 (by decide)).2.1⟩

/-! ## Extraction, suffix test and streak outside the failing cases -/

theorem string_find_nonempty (s p : List Char) (hs : s ≠ []) :
    string_find (some s) (some p)
      = match strstr_from s 0 p with
        | some m => (m : Int)
        | none => -1 := by
  have hlen : 0 < s.length := List.length_pos.mpr hs
  simp only [string_find, gt_iff_lt, hlen, if_true]

/-- On a non-empty string and non-empty patterns `string_between` returns NULL when `a`
or `b` is not found, else the bytes between the first `a` and the first `b`, inside a
block of fitting size. -/
theorem string_between_nonempty (s a b : List Char) (hs : s ≠ []) (ha : a ≠ []) (hb : b ≠ []) :
    ((string_find (some s) (some a) = -1 ∨ string_find (some s) (some b) = -1) →
      string_between (some s) (some a) (some b) = Ret.null) ∧
    ∀ ia ib : Nat, string_find (some s) (some a) = (ia : Int) →
      string_find (some s) (some b) = (ib : Int) → ia + a.length ≤ ib →
      (string_between (some s) (some a) (some b)).string s
        = some ((s.drop (ia + a.length)).take (ib - (ia + a.length))) := by
  have hg : s.length > 0 ∧ a.length > 0 ∧ b.length > 0 :=
    ⟨List.length_pos.mpr hs, List.length_pos.mpr ha, List.length_pos.mpr hb⟩
  rw [string_find_nonempty s a hs, string_find_nonempty s b hs]
  constructor
  · intro h
    unfold string_between
    simp only [hg, and_self, if_true]
    cases hfa : strstr_from s 0 a with
    | none => rfl
    | some ia =>
      cases hfb : strstr_from s 0 b with
      | none => rfl
      | some ib =>
        rw [hfa, hfb] at h
        rcases h with h | h
        · have h' : (ia : Int) = -1 := h
          omega
        · have h' : (ib : Int) = -1 := h
          omega
  · intro ia ib h1 h2 h3
    have hfa : strstr_from s 0 a = some ia := by
      cases hfa : strstr_from s 0 a with
      | none => rw [hfa] at h1; have h' : (-1 : Int) = (ia : Int) := h1; omega
      | some m => rw [hfa] at h1; have h' : (m : Int) = (ia : Int) := h1; congr 1; omega
    have hfb : strstr_from s 0 b = some ib := by
      cases hfb : strstr_from s 0 b with
      | none => rw [hfb] at h2; have h' : (-1 : Int) = (ib : Int) := h2; omega
      | some m => rw [hfb] at h2; have h' : (m : Int) = (ib : Int) := h2; congr 1; omega
    have hib : ib ≤ s.length := by
      have := ((strstr_from_some_iff s b 0 ib).mp hfb).2.2.1
      simpa using this
    unfold string_between
    simp only [hg, and_self, if_true, hfa, hfb]
    have e1 : (ib : Int) - ((ia : Int) + (a.length : Int)) = ((ib - (ia + a.length) : Nat) : Int) := by
      omega
    have e2 : (ia : Int) + (a.length : Int) = ((ia + a.length : Nat) : Int) := by omega
    have e0 : (0 : Int) = ((0 : Nat) : Int) := rfl
    rw [e1, e2, e0, memcpy_nat]
    simp only [Block.terminate, malloc, Int.toNat_ofNat]
    rw [peek_cstr s _ _ (by omega), poke_end [] _ 0 rfl, poke_end _ _ _ (by simp; omega)]
    have e3 : ia + a.length + (ib - (ia + a.length)) ≤ (cstr s).length := by
      simp [cstr]; omega
    simp only [Ret.string, e3, Nat.zero_add, Nat.lt_succ_self, le_refl, Nat.le_succ,
      decide_True, Bool.and_self, if_true, List.nil_append]
    exact text_cstr_append _ []

/-- When the pattern is no longer than the string, `string_ends_with` tells whether the
pattern is a suffix of the string. -/
theorem string_ends_with_fits (s p : List Char) (h : p.length ≤ s.length) :
    string_ends_with (some s) (some p) = Val.ret (decide (p <:+ s)) := by
  unfold string_ends_with
  simp only [size_sub_le _ _ h]
  have h1 : ¬ s.length < s.length - p.length := by omega
  rw [if_neg h1]
  congr 1
  rw [Bool.eq_iff_iff, strncmp_eq_iff, decide_eq_true_eq, List.suffix_iff_eq_drop]
  constructor
  · intro hp
    exact hp.eq_of_length (by simp; omega)
  · intro hp
    rw [← hp]

/-- When the non-empty pattern does not occur in the string, `string_streak` reads the
byte before the string. -/
theorem string_streak_absent (s p : List Char) (hp : p ≠ []) (hlen : p.length ≤ s.length)
    (hno : ∀ j, ¬ MatchAt s p j) (fuel : Nat) :
    string_streak (fuel + 1) (some s) (some p) = Val.wild := by
  have hpl : 0 < p.length := List.length_pos.mpr hp
  have hnone : strstr_from s 0 p = none :=
    (strstr_from_none_iff s p 0).mpr (fun j _ => hno j)
  have hs : s ≠ [] := by
    intro h; rw [h] at hlen; simp at hlen; exact hp hlen
  simp [string_streak, hnone, streak_loop, hlen, hs, hp]

/-! ## Claims on replacing, streaks, extraction and empty patterns -/

/-- C13: for a non-empty pattern `p` with `|p| ≤ |s|` that occurs in `s`, first at index
`i`, `string_streak` returns (any fuel above `|s|` suffices) a number `k ≥ 1` such that
`k'` back-to-back copies of `p` stand in `s` from index `i` on exactly when `k' ≤ k`. -/
theorem string_streak_spec (s p : List Char) (hp : p ≠ []) (_hlen : p.length ≤ s.length)
    (hocc : ∃ j, MatchAt s p j) :
    ∃ i k : Nat, MatchAt s p i ∧ (∀ j, j < i → ¬ MatchAt s p j) ∧ 1 ≤ k ∧
      (∀ fuel, s.length < fuel → string_streak fuel (some s) (some p) = Val.ret k) ∧
      ∀ k', copies k' p <+: s.drop i ↔ k' ≤ k := by
  have hpl : 0 < p.length := List.length_pos.mpr hp
  cases hf : strstr_from s 0 p with
  | none =>
    obtain ⟨j, hj⟩ := hocc
    exact absurd hj ((strstr_from_none_iff s p 0).mp hf j (Nat.zero_le j))
  | some i =>
    obtain ⟨_, h2, _, h4⟩ := (strstr_from_some_iff s p 0 i).mp hf
    have hb := matchAt_bound s p i hp h2
    obtain ⟨k, hk1, hk2, hk3⟩ := streak_loop_spec s p hp (s.length - i) i 0 (by omega) (le_refl _)
    have hk0 : 1 ≤ k := by
      rcases Nat.eq_zero_or_pos k with h | h
      · subst h
        exact absurd (by simpa [copies] using (matchAt_iff s p i).mp h2) hk3
      · exact h
    have hg : ¬ (s.length < p.length ∨ s.length = 0 ∨ p.length = 0) := by omega
    refine ⟨i, k, h2, fun j hj => h4 j (Nat.zero_le j) hj, hk0, ?_, ?_⟩
    · intro fuel hfuel
      have := hk1 fuel (by omega)
      simp only [string_streak, hg, if_false, hf]
      simpa using this
    · intro k'
      constructor
      · intro h
        by_contra hgt
        exact hk3 ((copies_prefix_mono p (k + 1) k' (by omega)).trans h)
      · intro h
        exact (copies_prefix_mono p k' k h).trans hk2

theorem string_streak_spec_witness :
    (∃ i k : Nat, MatchAt "Bar Foo Foo Bar Foo".toList "Foo ".toList i ∧
      (∀ j, j < i → ¬ MatchAt "Bar Foo Foo Bar Foo".toList "Foo ".toList j) ∧ 1 ≤ k ∧
      (∀ fuel, "Bar Foo Foo Bar Foo".toList.length < fuel →
        string_streak fuel (some "Bar Foo Foo Bar Foo".toList) (some "Foo ".toList)
          = Val.ret k) ∧
      ∀ k', copies k' "Foo ".toList <+: "Bar Foo Foo Bar Foo".toList.drop i ↔ k' ≤ k) ∧
    string_streak 20 (some "Bar Foo Foo Bar Foo".toList) (some "Foo ".toList) = Val.ret 2 :=
  ⟨string_streak_spec "Bar Foo Foo Bar Foo".toList "Foo ".toList (by decide) (by decide)
    ⟨4, by decide⟩, by decide⟩

/-- C12: "There" first occurs in "Hello There World" at index 6.  `string_replace` with
"X" leaves the bytes "Hello X World", but in a block of 13 bytes: the last `memcpy`
copies 12 bytes from offset 11 of the 18-byte argument to offset 7 of the block, and the
terminator is stored at index 13.  On the documented example (index 0) the block has 15
bytes for 15 bytes of text and the terminator is stored at index 15. -/
theorem string_replace_bounds :
    string_find (some "Hello There World".toList) (some "There".toList) = 6 ∧
    (∃ b, string_replace (some "Hello There World".toList) (some "There".toList)
          (some "X".toList) = Ret.fresh b ∧
      text b.cells = some "Hello X World".toList ∧
      b.size = 13 ∧ b.cells.length = 19 ∧ b.term = some 13 ∧ b.ok = false ∧
      (Ret.fresh b).string "Hello There World".toList = none) ∧
    ∃ b, string_replace (some "Hello Hello World".toList) (some "Hello".toList)
          (some "Bye".toList) = Ret.fresh b ∧
      text b.cells = some "Bye Hello World".toList ∧
      b.size = 15 ∧ b.term = some 15 ∧ b.ok = false := by
  refine ⟨by decide, ⟨_, rfl, ?_⟩, ⟨_, rfl, ?_⟩⟩ <;> decide

/-- C14: "Hello" does not occur in the empty string, yet `string_between` does not
return NULL there: the search is skipped and the positions are read unassigned.  On the
documented example the result is " There ". -/
theorem string_between_empty_string :
    string_find (some []) (some "Hello".toList) = -1 ∧
    string_between (some []) (some "Hello".toList) (some "World".toList) = Ret.wild ∧
    (string_between (some "Hello There World".toList) (some "Hello".toList)
        (some "World".toList)).string "Hello There World".toList = some " There ".toList := by
  decide

/-- C15: on a non-empty string `string_find` with the empty pattern returns 0. -/
theorem string_find_empty_pattern :
    (∀ (c : Char) (s : List Char), string_find (some (c :: s)) (some []) = 0) ∧
    string_find (some "abc".toList) (some []) = 0 := by
  refine ⟨?_, by decide⟩
  intro c s
  simp [string_find, strstr_from, strstr]

theorem count_loop_empty_pattern (s : List Char) (fuel : Nat) :
    ∀ c, count_loop s [] 0 fuel 0 c = none := by
  induction fuel with
  | zero => intro c; rfl
  | succ f ih =>
    intro c
    have h : strstr_from s 0 [] = some 0 := by
      cases s <;> simp [strstr_from, strstr]
    rw [count_loop, h]
    exact ih (c + 1)

/-- C16: with the empty pattern `string_remove_all` never leaves its counting loop,
whatever the string and however much fuel it is given. -/
theorem string_remove_all_empty_pattern :
    ∀ (s : List Char) (fuel : Nat), string_remove_all fuel (some s) (some []) = Ret.spin := by
  intro s fuel
  simp [string_remove_all, count_loop_empty_pattern]

/-- C17: with the string "a" and the longer pattern "ba" the offset
`strlen(str) - strlen(substr)` wraps to `2^64 - 1` and `string_ends_with` compares
bytes outside the string. -/
theorem string_ends_with_longer_pattern :
    size_sub "a".toList.length "ba".toList.length = 2 ^ 64 - 1 ∧
    string_ends_with (some "a".toList) (some "ba".toList) = Val.wild := by
  decide

/-- C18: "x" does not occur in "abc"; `string_streak` keeps `pos = -1` and hands
`str + pos` to `strncmp`, reading the byte before the string. -/
theorem string_streak_not_found :
    string_find (some "abc".toList) (some "x".toList) = -1 ∧
    ∀ fuel, string_streak (fuel + 1) (some "abc".toList) (some "x".toList) = Val.wild := by
  refine ⟨by decide, fun fuel => ?_⟩
  rfl

/-- C19: the six calls on the examples of their doc comments.  `string_slice` allocates
5 bytes for 5 bytes of text and stores the terminator at index 11; `string_cut_left` and
`string_cut_right` allocate 7 bytes for 6 bytes of text and store it at index 11;
`string_remove_all`, `string_replace` and `string_replace_all` allocate 12, 15 and 13
bytes for as many bytes of text and store it at index 12, 15 and 13, one past the block. -/
theorem result_buffer_sizes :
    (∃ b, string_slice (some "Hello World".toList) 0 4 = Ret.fresh b ∧
      b.cells.take 5 = "Hello".toList.map Cell.chr ∧
      b.size = 5 ∧ b.term = some 11 ∧ b.ok = false) ∧
    (∃ b, string_cut_left (some "Hello World".toList) 5 = Ret.fresh b ∧
      b.cells.take 6 = " World".toList.map Cell.chr ∧
      b.size = 7 ∧ b.term = some 11 ∧ b.ok = false) ∧
    (∃ b, string_cut_right (some "Hello World".toList) 5 = Ret.fresh b ∧
      b.cells.take 6 = "Hello ".toList.map Cell.chr ∧
      b.size = 7 ∧ b.term = some 11 ∧ b.ok = false) ∧
    (∃ b, string_remove_all 20 (some "Hello There World".toList) (some "There".toList)
        = Ret.fresh b ∧
      b.cells.take 12 = "Hello  World".toList.map Cell.chr ∧
      b.size = 12 ∧ b.term = some 12 ∧ b.ok = false) ∧
    (∃ b, string_replace (some "Hello Hello World".toList) (some "Hello".toList)
        (some "Bye".toList) = Ret.fresh b ∧
      b.cells.take 15 = "Bye Hello World".toList.map Cell.chr ∧
      b.size = 15 ∧ b.term = some 15 ∧ b.ok = false) ∧
    (∃ b, string_replace_all 20 (some "Hello Hello World".toList) (some "Hello".toList)
        (some "Bye".toList) = Ret.fresh b ∧
      b.cells.take 13 = "Bye Bye World".toList.map Cell.chr ∧
      b.size = 13 ∧ b.term = some 13 ∧ b.ok = false) := by
  refine ⟨⟨_, rfl, ?_⟩, ⟨_, rfl, ?_⟩, ⟨_, rfl, ?_⟩, ⟨_, rfl, ?_⟩, ⟨_, rfl, ?_⟩, ⟨_, rfl, ?_⟩⟩ <;>
    decide

end ZString

namespace ZImage

/-- C20: with an 8-byte pointer and a 4-byte `int` the loop of `has_header` compares two
bytes: a file that starts 137, 80 and goes on with zeros has the PNG header, and so has
a file holding 255, 216, 0 the JPEG header; an empty file has every header, whatever the
sizes. -/
theorem has_header_compares_two_bytes :
    has_header 8 4 (some [137, 80, 0, 0, 0, 0, 0, 0]) HEADER_PNG = some true ∧
    has_header 8 4 (some [255, 216, 0]) HEADER_JPG = some true ∧
    has_header 8 4 (some [137]) HEADER_PNG = some true ∧
    ∀ (sizeof_ptr sizeof_int : Nat) (header : List Int),
      has_header sizeof_ptr sizeof_int (some []) header = some true := by
  refine ⟨by decide, by decide, by decide, fun _ _ _ => rfl⟩

end ZImage

namespace ZString

/-! ## Size of the non-overlapping count -/

/-- Each occurrence the counting loop of `string_count` counts takes `|p|` bytes of what
is left of the string behind the cursor. -/
theorem count_loop_bound (s p : List Char) (hp : p ≠ []) (fuel : Nat) :
    ∀ (ptr c r : Nat), ptr ≤ s.length → count_loop s p p.length fuel ptr c = some r →
      ∃ N, r = c + N ∧ N * p.length + ptr ≤ s.length := by
  induction fuel with
  | zero => intro ptr c r _ h; simp [count_loop] at h
  | succ f ih =>
    intro ptr c r hptr h
    rw [count_loop] at h
    cases hs : strstr_from s ptr p with
    | none =>
      rw [hs] at h
      have hr : c = r := by simpa using h
      exact ⟨0, by omega, by omega⟩
    | some m =>
      rw [hs] at h
      obtain ⟨hm1, hm2, _, _⟩ := (strstr_from_some_iff s p ptr m).mp hs
      have hb := matchAt_bound s p m hp hm2
      obtain ⟨N, hN1, hN2⟩ := ih (m + p.length) (c + 1) r hb h
      refine ⟨N + 1, by omega, ?_⟩
      rw [Nat.succ_mul]
      omega

/-- C21: for every string `s` and pattern `p`, `string_count` returns (any fuel above
`|s|` suffices) a number `k` with `k * |p| ≤ |s|`; so the unsigned differences
`|s| - |p| * k` of `string_remove_all` and `|s| - (|p| - |r|) * k` of the shrinking branch
of `string_replace_all` do not wrap.  For a non-empty pattern `k` is also the count
these two functions compute themselves. -/
theorem string_count_mul_le (s p : List Char) :
    ∃ k : Nat,
      (∀ fuel, s.length < fuel → string_count fuel (some s) (some p) = some k) ∧
      k * p.length ≤ s.length ∧
      size_sub s.length (p.length * k) = s.length - p.length * k ∧
      (∀ r : List Char, ¬ p.length < r.length →
        (p.length - r.length) * k ≤ s.length ∧
        size_sub s.length ((p.length - r.length) * k)
          = s.length - (p.length - r.length) * k) ∧
      (p ≠ [] → ∀ fuel, s.length < fuel → count_loop s p p.length fuel 0 0 = some k) := by
  have key : ∀ k : Nat, k * p.length ≤ s.length →
      size_sub s.length (p.length * k) = s.length - p.length * k ∧
      (∀ r : List Char, ¬ p.length < r.length →
        (p.length - r.length) * k ≤ s.length ∧
        size_sub s.length ((p.length - r.length) * k)
          = s.length - (p.length - r.length) * k) := by
    intro k hk
    refine ⟨size_sub_le _ _ (by rw [Nat.mul_comm]; exact hk), fun r _ => ?_⟩
    have h1 : (p.length - r.length) * k ≤ p.length * k :=
      Nat.mul_le_mul_right k (Nat.sub_le _ _)
    have h2 : (p.length - r.length) * k ≤ s.length := by
      rw [Nat.mul_comm p.length k] at h1; omega
    exact ⟨h2, size_sub_le _ _ h2⟩
  by_cases hg : s.length < p.length ∨ s.length = 0 ∨ p.length = 0
  · refine ⟨0, fun _ _ => by rw [string_count_some, if_pos hg], by simp,
      (key 0 (by simp)).1, (key 0 (by simp)).2, ?_⟩
    intro hp fuel hfuel
    have hpl : 0 < p.length := List.length_pos.mpr hp
    obtain ⟨f, rfl⟩ : ∃ f, fuel = f + 1 := ⟨fuel - 1, by omega⟩
    have hnone : strstr_from s 0 p = none := by
      refine (strstr_from_none_iff s p 0).mpr (fun j _ hj => ?_)
      have := matchAt_bound s p j hp hj
      omega
    rw [count_loop, hnone]
  · have hp : p ≠ [] := by
      intro h; apply hg; right; right; simp [h]
    have hpl : 0 < p.length := List.length_pos.mpr hp
    obtain ⟨k, hk1, _, _⟩ :=
      count_loop_spec s p hp p.length hpl (le_refl _) (s.length + 1) 0 0 (Nat.zero_le _)
        (by omega)
    obtain ⟨N, hN1, hN2⟩ := count_loop_bound s p hp (s.length + 1) 0 0 (0 + k) (Nat.zero_le _) hk1
    have hkN : k = N := by omega
    subst hkN
    have hall : ∀ fuel, s.length < fuel → count_loop s p p.length fuel 0 0 = some k := by
      intro fuel hfuel
      obtain ⟨j, rfl⟩ : ∃ j, fuel = s.length + 1 + j := ⟨fuel - (s.length + 1), by omega⟩
      simpa using count_loop_mono s p p.length (s.length + 1) 0 0 _ hk1 j
    refine ⟨k, ?_, by omega, (key k (by omega)).1, (key k (by omega)).2, fun _ => hall⟩
    intro fuel hfuel
    rw [string_count_some, if_neg hg]
    exact hall fuel hfuel

/-! ## Before and after an occurrence -/

theorem string_before_block (s p : List Char) (hs : s ≠ []) (hp : p ≠ []) (i : Nat)
    (hf : strstr_from s 0 p = some i) :
    string_before (some s) (some p) = Ret.fresh ⟨i + 1, cstr (s.take i), some i, true⟩ := by
  have hg : s.length > 0 ∧ p.length > 0 :=
    ⟨List.length_pos.mpr hs, List.length_pos.mpr hp⟩
  have hb := matchAt_bound s p i hp ((strstr_from_some_iff s p 0 i).mp hf).2.1
  unfold string_before
  simp only [hg, and_self, if_true, hf]
  have e0 : (0 : Int) = ((0 : Nat) : Int) := rfl
  rw [e0, memcpy_nat]
  simp only [Block.terminate, malloc]
  rw [peek_cstr s 0 i (by omega), poke_end [] _ 0 rfl, poke_end _ _ i (by simp; omega)]
  have e3 : 0 + i ≤ (cstr s).length := by simp [cstr]; omega
  simp [cstr, e3]
  omega

theorem string_after_block (s p : List Char) (hs : s ≠ []) (hp : p ≠ []) (i : Nat)
    (hf : strstr_from s 0 p = some i) :
    string_after (some s) (some p)
      = Ret.fresh ⟨s.length - p.length - i + 1, cstr (s.drop (i + p.length)),
          some (s.length - p.length - i), true⟩ := by
  have hg : s.length > 0 ∧ p.length > 0 :=
    ⟨List.length_pos.mpr hs, List.length_pos.mpr hp⟩
  have hb := matchAt_bound s p i hp ((strstr_from_some_iff s p 0 i).mp hf).2.1
  unfold string_after
  simp only [hg, and_self, if_true, hf]
  rw [size_sub_le s.length p.length (by omega), size_sub_le _ i (by omega)]
  have e0 : (0 : Int) = ((0 : Nat) : Int) := rfl
  have e1 : (i : Int) + (p.length : Int) = ((i + p.length : Nat) : Int) := by omega
  rw [e0, e1, memcpy_nat]
  simp only [Block.terminate, malloc]
  rw [peek_cstr s _ _ (by omega), poke_end [] _ 0 rfl, poke_end _ _ _ (by simp; omega)]
  have e3 : i + p.length + (s.length - p.length - i) ≤ (cstr s).length := by
    simp [cstr]; omega
  simp [cstr, e3, List.take_of_length_le]
  omega

/-- C22: for a non-empty string `s` and a non-empty pattern `p` occurring in `s`,
`string_before` and `string_after` return strings `bef` and `aft` with
`bef ++ p ++ aft = s` and `|bef| + |p| + |aft| = |s|`. -/
theorem string_before_after (s p : List Char) (hs : s ≠ []) (hp : p ≠ [])
    (hocc : ∃ j, MatchAt s p j) :
    ∃ bef aft : List Char,
      (string_before (some s) (some p)).string s = some bef ∧
      (string_after (some s) (some p)).string s = some aft ∧
      bef ++ p ++ aft = s ∧ bef.length + p.length + aft.length = s.length := by
  cases hf : strstr_from s 0 p with
  | none =>
    obtain ⟨j, hj⟩ := hocc
    exact absurd hj ((strstr_from_none_iff s p 0).mp hf j (Nat.zero_le j))
  | some i =>
    have hm : MatchAt s p i := ((strstr_from_some_iff s p 0 i).mp hf).2.1
    have hb := matchAt_bound s p i hp hm
    have hcat : s.take i ++ p ++ s.drop (i + p.length) = s := by
      unfold MatchAt at hm
      calc s.take i ++ p ++ s.drop (i + p.length)
          = s.take i ++ ((s.drop i).take p.length ++ (s.drop i).drop p.length) := by
            rw [hm, List.drop_drop, List.append_assoc, Nat.add_comm]
        _ = s.take i ++ s.drop i := by rw [List.take_append_drop]
        _ = s := List.take_append_drop i s
    refine ⟨s.take i, s.drop (i + p.length), ?_, ?_, hcat, ?_⟩
    · rw [string_before_block s p hs hp i hf]
      simp only [Ret.string, if_true, text_cstr]
    · rw [string_after_block s p hs hp i hf]
      simp only [Ret.string, if_true, text_cstr]
    · simp only [List.length_take, List.length_drop]
      omega

theorem string_before_after_witness :
    ∃ bef aft : List Char,
      (string_before (some "Hello There World".toList) (some "There".toList)).string
          "Hello There World".toList = some bef ∧
      (string_after (some "Hello There World".toList) (some "There".toList)).string
          "Hello There World".toList = some aft ∧
      bef ++ "There".toList ++ aft = "Hello There World".toList ∧
      bef.length + "There".toList.length + aft.length = "Hello There World".toList.length :=
  string_before_after "Hello There World".toList "There".toList (by decide) (by decide)
    ⟨6, by decide⟩

/-! ## Rotations as strings -/

theorem string_shift_left_string (s : List Char) (a : Nat) (hs : s ≠ []) :
    (string_shift_left (some s) a).string s
      = some (s.drop (a % s.length) ++ s.take (a % s.length)) := by
  have h0 : s.length ≠ 0 := fun h => hs (List.length_eq_zero.mp h)
  by_cases hk : a % s.length = 0
  · have : string_shift_left (some s) a = Ret.arg := by
      unfold string_shift_left; simp only [h0, hk, if_false, if_true]
    rw [this, hk]; simp [Ret.string]
  · rw [string_shift_left_block s a hs hk]
    simp only [Ret.string, if_true, text_cstr]

theorem string_shift_right_string (s : List Char) (a : Nat) (hs : s ≠ []) :
    (string_shift_right (some s) a).string s
      = some (s.drop (s.length - a % s.length) ++ s.take (s.length - a % s.length)) := by
  have h0 : s.length ≠ 0 := fun h => hs (List.length_eq_zero.mp h)
  by_cases hk : a % s.length = 0
  · have : string_shift_right (some s) a = Ret.arg := by
      unfold string_shift_right; simp only [h0, hk, if_false, if_true]
    rw [this, hk]; simp [Ret.string]
  · rw [string_shift_right_block s a hs hk]
    simp only [Ret.string, if_true, text_cstr]

/-- C23: for a non-empty string `s` and every amount `a`, `string_shift_left` gives a
string `t` that `string_shift_right` by `a` turns back into `s`, and `string_shift_right`
gives a string `u` that `string_shift_left` by `a` turns back into `s`. -/
theorem string_shift_inverse (s : List Char) (a : Nat) (hs : s ≠ []) :
    ∃ t u : List Char,
      (string_shift_left (some s) a).string s = some t ∧
      (string_shift_right (some t) a).string t = some s ∧
      (string_shift_right (some s) a).string s = some u ∧
      (string_shift_left (some u) a).string u = some s := by
  have hlen : 0 < s.length := List.length_pos.mpr hs
  have hlt : a % s.length < s.length := Nat.mod_lt _ hlen
  have ht_len : (s.drop (a % s.length) ++ s.take (a % s.length)).length = s.length := by
    simp only [List.length_append, List.length_drop, List.length_take]; omega
  have hu_len : (s.drop (s.length - a % s.length) ++ s.take (s.length - a % s.length)).length
      = s.length := by
    simp only [List.length_append, List.length_drop, List.length_take]; omega
  have ht_ne : s.drop (a % s.length) ++ s.take (a % s.length) ≠ [] := by
    intro h; rw [h] at ht_len; simp at ht_len; omega
  have hu_ne : s.drop (s.length - a % s.length) ++ s.take (s.length - a % s.length) ≠ [] := by
    intro h; rw [h] at hu_len; simp at hu_len; omega
  refine ⟨_, _, string_shift_left_string s a hs, ?_, string_shift_right_string s a hs, ?_⟩
  · rw [string_shift_right_string _ a ht_ne, ht_len]
    have h1 : (s.drop (a % s.length)).length = s.length - a % s.length := by simp
    rw [List.drop_left' h1, List.take_left' h1, List.take_append_drop]
  · rw [string_shift_left_string _ a hu_ne, hu_len]
    have h1 : (s.drop (s.length - a % s.length)).length = a % s.length := by
      simp only [List.length_drop]; omega
    rw [List.drop_left' h1, List.take_left' h1, List.take_append_drop]

theorem string_shift_inverse_witness :
    ∃ t u : List Char,
      (string_shift_left (some "abcdefg".toList) 3).string "abcdefg".toList = some t ∧
      (string_shift_right (some t) 3).string t = some "abcdefg".toList ∧
      (string_shift_right (some "abcdefg".toList) 3).string "abcdefg".toList = some u ∧
      (string_shift_left (some u) 3).string u = some "abcdefg".toList :=
  string_shift_inverse "abcdefg".toList 3 (by decide)

/-! ## Replacing by nothing -/

theorem poke_nil (cells : List Cell) (d : Nat) : poke cells d [] = cells := by
  cases cells <;> cases d <;> rfl

/-- A `memcpy` of no bytes from the empty string to the end of what the previous
`memcpy` stored changes nothing. -/
theorem memcpy_nothing (b out : Block) (dst : Int) (obj : List Cell) (src n : Int)
    (h : memcpy b dst obj src n = some out) :
    memcpy out (dst + n) (cstr []) 0 ((([] : List Char).length : Nat) : Int) = some out := by
  unfold memcpy at h
  by_cases hc : dst < 0 ∨ src < 0 ∨ n < 0
  · rw [if_pos hc] at h; exact absurd h (by simp)
  · rw [if_neg hc] at h
    have hout : out = _ := (Option.some.inj h).symm
    have hd : 0 ≤ dst := by omega
    have hn : 0 ≤ n := by omega
    have hc2 : ¬ (dst + n < 0 ∨ (0 : Int) < 0 ∨ ((([] : List Char).length : Nat) : Int) < 0) := by
      simp only [List.length_nil, Nat.cast_zero, lt_self_iff_false, or_false]; omega
    unfold memcpy
    rw [if_neg hc2]
    have hpeek : peek (cstr []) (Int.toNat 0) (Int.toNat ((([] : List Char).length : Nat) : Int))
        = [] := by decide
    rw [hpeek, poke_nil]
    have htn : (dst + n).toNat = dst.toNat + n.toNat := Int.toNat_add hd hn
    have hok : (out.ok && decide ((dst + n).toNat
          + (Int.toNat ((([] : List Char).length : Nat) : Int)) ≤ out.size)
        && decide (Int.toNat 0 + Int.toNat ((([] : List Char).length : Nat) : Int)
          ≤ (cstr []).length)) = out.ok := by
      rw [htn, hout]
      by_cases hle : dst.toNat + n.toNat ≤ b.size <;> simp [hle, cstr]
    rw [hok]

theorem replace_all_loop_nil (s p : List Char) (n : Nat) :
    ∀ (i : Nat) (pos_str pos_out : Int) (output : Block),
      replace_all_loop s p [] n i pos_str pos_out output
        = remove_all_loop s p n i pos_str pos_out output := by
  induction n with
  | zero => intro i pos_str pos_out output; rfl
  | succ n ih =>
    intro i pos_str pos_out output
    rw [replace_all_loop, remove_all_loop]
    cases hfind : find_nth_loop s p (i + 1) 0 (-1) with
    | none => rfl
    | some pos =>
      simp only
      cases hm : memcpy output pos_out (cstr s) pos_str (pos - pos_str) with
      | none => rfl
      | some out =>
        simp only
        rw [memcpy_nothing output out pos_out (cstr s) pos_str (pos - pos_str) hm]
        simp only [List.length_nil, Nat.cast_zero, add_zero]
        rw [add_assoc]
        exact ih _ _ _ _

/-- C24: for a non-empty string `s` and a non-empty pattern `p` with `|p| ≤ |s|`,
`string_replace_all` with the empty replacement does exactly what `string_remove_all`
does: the two calls end the same way and return the same bytes, and with fuel above
`|s|` both leave their counting loop. -/
theorem string_replace_all_empty (s p : List Char) (hs : s ≠ []) (hp : p ≠ [])
    (hlen : p.length ≤ s.length) :
    (∀ fuel, string_replace_all fuel (some s) (some p) (some [])
        = string_remove_all fuel (some s) (some p)) ∧
    (∀ fuel, (string_replace_all fuel (some s) (some p) (some [])).text s
        = (string_remove_all fuel (some s) (some p)).text s) ∧
    (∀ fuel, s.length < fuel → string_remove_all fuel (some s) (some p) ≠ Ret.spin) := by
  have hsl : 0 < s.length := List.length_pos.mpr hs
  have hpl : 0 < p.length := List.length_pos.mpr hp
  have hg : ¬ (s.length < p.length ∨ s.length = 0 ∨ p.length = 0) := by omega
  have heq : ∀ fuel, string_replace_all fuel (some s) (some p) (some [])
      = string_remove_all fuel (some s) (some p) := by
    intro fuel
    unfold string_replace_all string_remove_all
    simp only [hg, if_false]
    cases hcount : count_loop s p p.length fuel 0 0 with
    | none => rfl
    | some count =>
      simp only [List.length_nil, Nat.not_lt_zero, if_false, Nat.sub_zero,
        replace_all_loop_nil]
  refine ⟨heq, fun fuel => by rw [heq fuel], ?_⟩
  intro fuel hfuel
  obtain ⟨k, hk, _, _⟩ :=
    count_loop_spec s p hp p.length hpl (le_refl _) fuel 0 0 (Nat.zero_le _) (by omega)
  unfold string_remove_all
  simp only [hk]
  split
  · simp
  · split
    · simp
    · split <;> simp

theorem string_replace_all_empty_witness :
    ((∀ fuel, string_replace_all fuel (some "Hello There World".toList) (some "There".toList)
          (some [])
        = string_remove_all fuel (some "Hello There World".toList) (some "There".toList)) ∧
    (∀ fuel, (string_replace_all fuel (some "Hello There World".toList)
          (some "There".toList) (some [])).text "Hello There World".toList
        = (string_remove_all fuel (some "Hello There World".toList)
          (some "There".toList)).text "Hello There World".toList) ∧
    (∀ fuel, "Hello There World".toList.length < fuel →
      string_remove_all fuel (some "Hello There World".toList) (some "There".toList)
        ≠ Ret.spin)) ∧
    (string_replace_all 20 (some "Hello There World".toList) (some "There".toList)
        (some [])).text "Hello There World".toList = some "Hello  World".toList :=
  ⟨string_replace_all_empty "Hello There World".toList "There".toList (by decide) (by decide)
    (by decide), by decide⟩

end ZString
